import Mathlib

/-!
Verification of the spec/config-resolution core of the repository
(`openx/utils/spec.py`). Python runtime values that can appear inside a
config tree are modelled by the inductive type `Value`; Python dicts are
association lists in insertion order with unique keys (uniqueness is stated
as a hypothesis where a proof needs it). Constructible entities (classes /
functions reachable through `importlib`) are modelled by an abstract
registry mapping a (module, name) pair to a Lean function from positional
and keyword arguments to a result value; `importlib`'s import machinery
itself is outside the program text and is abstracted by that registry.
Python exceptions are modelled by the error type `Err`, distinguishing the
error classes the source can raise (the shape-check `ValueError` is kept
distinct from the import-failure `ValueError` since they are distinct
failure kinds with distinct messages).
-/

set_option autoImplicit false

/-- A Python runtime value as it can occur in a config tree: scalars,
strings, `None`, tuples, lists, sets and dicts (dicts with string keys, in
insertion order, as in the source's usage). -/
inductive Value where
  | str : String → Value
  | int : Int → Value
  | none : Value
  | list : List Value → Value
  | tuple : List Value → Value
  | set : List Value → Value
  | dict : List (String × Value) → Value

/-- Error kinds corresponding to the Python exceptions the source can
raise: the `ValueError` from `ModuleSpec.instantiate`'s shape check
(`invalidSpecShape`), the `ValueError` raised by `_import_from_string` on a
failed import (`resolutionError`), the `ValueError` of `_infer_full_name`
(`unresolvableCallable`), the `AssertionError` of `ModuleSpec.create`
(`assertionError`), and the builtin `TypeError`/`KeyError`/`AttributeError`
that dict / sequence operations raise. -/
inductive Err where
  | invalidSpecShape : Err
  | resolutionError : Err
  | unresolvableCallable : Err
  | assertionError : Err
  | typeError : Err
  | keyError : Err
  | attributeError : Err
deriving DecidableEq

/-- First-match lookup in an association list: Python `d[k]` / `d.get(k)`
on a dict (keys are unique in a real dict, so first match is the match). -/
def lookupOpt : List (String × Value) → String → Option Value
  | [], _ => Option.none
  | (k', v) :: rest, k => if k' = k then some v else lookupOpt rest k

/-- Total lookup with `Value.none` as default; used only where the
surrounding check already guarantees the key is present. -/
def lookupD (kvs : List (String × Value)) (k : String) : Value :=
  (lookupOpt kvs k).getD .none

/-- Python `k in d`. -/
def containsKey (kvs : List (String × Value)) (k : String) : Bool :=
  (lookupOpt kvs k).isSome

/-- Python `d[k] = v` on a dict: an existing key keeps its position and
gets the new value; a new key is appended at the end. -/
def setKey : List (String × Value) → String → Value → List (String × Value)
  | [], k, v => [(k, v)]
  | (k', w) :: rest, k, v =>
    if k' = k then (k', v) :: rest else (k', w) :: setKey rest k v

/-- A constructible entity (class or function): applied to positional and
keyword arguments it produces a value. -/
def Constructible : Type := List Value → List (String × Value) → Value

/-- The registry of importable entities: `_import_from_string` is modelled
as a lookup of the (module, name) pair in this registry. -/
def Registry : Type := String → String → Option Constructible

/-- The `functools.partial` object returned by `ModuleSpec.instantiate`:
the looked-up constructible with the spec's args/kwargs pre-bound. The
`module`/`name` fields record which registry entry was resolved; they only
serve to name invocation events in the observable trace. -/
structure ResolvedBinding where
  func : Constructible
  args : List Value
  kwargs : List (String × Value)
  module : String
  name : String

/-- Python `{**a, **b}` (also the semantics of calling
`functools.partial(f, **a)` with extra kwargs `b`): keys of `a` keep their
order with values overridden by `b` on collision, then keys of `b` absent
from `a` follow in their order. -/
def mergeKw (a b : List (String × Value)) : List (String × Value) :=
  a.map (fun p => (p.1, (lookupOpt b p.1).getD p.2)) ++
    b.filter (fun p => (lookupOpt a p.1).isNone)

/-- Invoking a `functools.partial`: extra positional arguments are appended
after the bound ones, extra keyword arguments are merged with call-time
precedence. -/
def callBinding (b : ResolvedBinding) (extraArgs : List Value)
    (extraKwargs : List (String × Value)) : Value :=
  b.func (b.args ++ extraArgs) (mergeKw b.kwargs extraKwargs)

/-- Python iterable splat `*x` as used in `partial(cls, *spec["args"], ...)`:
tuples/lists/sets yield their elements, a string yields its characters, a
dict yields its keys; non-iterables raise `TypeError`. -/
def asArgsList : Value → Except Err (List Value)
  | .tuple vs => .ok vs
  | .list vs => .ok vs
  | .set vs => .ok vs
  | .str s => .ok (s.toList.map (fun c => Value.str (String.mk [c])))
  | .dict kvs => .ok (kvs.map (fun p => Value.str p.1))
  | _ => .error .typeError

/-- Python mapping splat `**x`: only a mapping is accepted. -/
def asKwargsList : Value → Except Err (List (String × Value))
  | .dict kvs => .ok kvs
  | _ => .error .typeError

/-- Python `s.split(sep)` for a one-character separator, by structural
recursion on the characters (so that concrete splits evaluate by `rfl`):
splitting never yields the empty list, `"".split(".") == [""]`, and
`"a.b.c".split(".") == ["a","b","c"]`. -/
def pySplitAux (sep : Char) : List Char → List Char → List String
  | [], acc => [String.mk acc.reverse]
  | c :: rest, acc =>
    if c = sep then String.mk acc.reverse :: pySplitAux sep rest []
    else pySplitAux sep rest (c :: acc)

def pySplit (sep : Char) (s : String) : List String :=
  pySplitAux sep s.toList []

namespace ModuleSpec

/-- `ModuleSpec.is_module_spec` from the source:
`isinstance(d, dict) and all([k in d for k in ("module", "name", "args",
"kwargs")]) and len(d) == 4`. -/
def is_module_spec (v : Value) : Bool :=
  match v with
  | .dict kvs =>
    (containsKey kvs "module" && containsKey kvs "name" &&
      containsKey kvs "args" && containsKey kvs "kwargs") && kvs.length == 4
  | _ => false

/-- The required key set of the shape check in `ModuleSpec.instantiate`:
`{"module", "name", "args", "kwargs"}`. -/
def requiredKeys : Finset String := {"module", "name", "args", "kwargs"}

/-- The shape check performed by `ModuleSpec.instantiate`:
`set(spec.keys()) != {"module", "name", "args", "kwargs"}` raises; this
predicate is the accepting condition (`set(spec.keys()) == {...}`). A
non-mapping has no `.keys()` (the Python code would raise before any
lookup), hence the `false` branch. -/
def resolverShapeOk (v : Value) : Bool :=
  match v with
  | .dict kvs => decide ((kvs.map Prod.fst).toFinset = requiredKeys)
  | _ => false

/-- `ModuleSpec.instantiate` from the source: `None` passes through; a
candidate spec is shape-checked (exactly the four keys), then the
(module, name) pair is resolved through the registry (`_import_from_string`
wraps any lookup failure, including a non-string module or name, into a
`ValueError`, modelled as `resolutionError`), and finally
`partial(cls, *spec["args"], **spec["kwargs"])` is built (splat failures
raise `TypeError`). -/
def instantiate (reg : Registry) (spec : Value) :
    Except Err (Option ResolvedBinding) :=
  match spec with
  | .none => .ok Option.none
  | .dict kvs =>
    if resolverShapeOk (.dict kvs) then
      match lookupD kvs "module", lookupD kvs "name" with
      | .str m, .str n =>
        match reg m n with
        | some f =>
          match asArgsList (lookupD kvs "args") with
          | .error e => .error e
          | .ok args =>
            match asKwargsList (lookupD kvs "kwargs") with
            | .error e => .error e
            | .ok kwargs =>
              .ok (some { func := f, args := args, kwargs := kwargs,
                          module := m, name := n })
        | Option.none => .error .resolutionError
      | _, _ => .error .resolutionError
    else .error .invalidSpecShape
  | _ => .error .attributeError

/-- The argument of `ModuleSpec.create`: either a fully qualified import
string, or a live callable that exposes `__module__`/`__name__`
(`withAttrs`), or one that does not (`withoutAttrs`, on which
`_infer_full_name` raises `ValueError`). -/
inductive CSource where
  | fromString : String → CSource
  | withAttrs : String → String → CSource
  | withoutAttrs : CSource

/-- The spec dict built by `ModuleSpec.create`'s final
`ModuleSpec(module=..., name=..., args=args, kwargs=kwargs)` call (a
TypedDict call, i.e. a plain dict in that key order). -/
def mkSpecDict (m n : String) (args : List Value)
    (kwargs : List (String × Value)) : Value :=
  .dict [("module", .str m), ("name", .str n),
         ("args", .tuple args), ("kwargs", .dict kwargs)]

/-- `ModuleSpec.create` from the source: a string source must contain
exactly one `":"` (the assert checks `count(":") == 1`, i.e. the split has
exactly two parts); a callable source must expose
`__module__`/`__name__`. -/
def create (src : CSource) (args : List Value)
    (kwargs : List (String × Value)) : Except Err Value :=
  match src with
  | .fromString s =>
    match pySplit ':' s with
    | [m, n] => .ok (mkSpecDict m n args kwargs)
    | _ => .error .assertionError
  | .withAttrs m n => .ok (mkSpecDict m n args kwargs)
  | .withoutAttrs => .error .unresolvableCallable

end ModuleSpec

/-- Python truthiness of a value, as used by the conditional separator in
`ModuleSpec.to_string` (`', ' if spec['args'] and spec['kwargs'] else ''`). -/
def truthy : Value → Bool
  | .str s => !(s == "")
  | .int i => !(i == 0)
  | .none => false
  | .list vs => !vs.isEmpty
  | .tuple vs => !vs.isEmpty
  | .set vs => !vs.isEmpty
  | .dict kvs => !kvs.isEmpty

mutual

/-- Python `repr` of a value (string escape sequences elided: a string is
rendered between plain quotes). Only scalar cases matter to the claims; the
container cases follow CPython's representation. -/
def pyRepr : Value → String
  | .str s => "\x27" ++ s ++ "\x27"
  | .int i => toString i
  | .none => "None"
  | .list vs => "[" ++ String.intercalate ", " (pyReprList vs) ++ "]"
  | .tuple [] => "()"
  | .tuple [x] => "(" ++ pyRepr x ++ ",)"
  | .tuple (x :: y :: rest) =>
    "(" ++ String.intercalate ", " (pyReprList (x :: y :: rest)) ++ ")"
  | .set [] => "set()"
  | .set (x :: rest) =>
    "\x7b" ++ String.intercalate ", " (pyReprList (x :: rest)) ++ "\x7d"
  | .dict kvs => "\x7b" ++ String.intercalate ", " (pyReprEntries kvs) ++ "\x7d"
termination_by v => sizeOf v
decreasing_by all_goals (simp_wf <;> omega)

def pyReprList : List Value → List String
  | [] => []
  | v :: rest => pyRepr v :: pyReprList rest
termination_by vs => sizeOf vs
decreasing_by all_goals (simp_wf <;> omega)

def pyReprEntries : List (String × Value) → List String
  | [] => []
  | (k, v) :: rest => ("\x27" ++ k ++ "\x27: " ++ pyRepr v) :: pyReprEntries rest
termination_by kvs => sizeOf kvs
decreasing_by all_goals (simp_wf <;> omega)

end

/-- Python `str` of a value (as performed by an f-string interpolation):
the identity on strings, `repr`-like on everything else. -/
def pyStr : Value → String
  | .str s => s
  | v => pyRepr v

/-- The element check of Python `', '.join(xs)`: every element must be a
`str` instance, otherwise `TypeError`. -/
def strList : List Value → Except Err (List String)
  | [] => .ok []
  | .str s :: rest =>
    match strList rest with
    | .error e => .error e
    | .ok ss => .ok (s :: ss)
  | _ :: _ => .error .typeError

/-- Python `', '.join(x)` argument handling: `x` must be an iterable of
`str` (a string iterates over its characters, a dict over its keys);
otherwise `TypeError`. -/
def strItems : Value → Except Err (List String)
  | .tuple vs => strList vs
  | .list vs => strList vs
  | .set vs => strList vs
  | .str s => .ok (s.toList.map (fun c => String.mk [c]))
  | .dict kvs => .ok (kvs.map Prod.fst)
  | _ => .error .typeError

/-- Python `spec[k]` on an arbitrary value: `KeyError` when the key is
absent from a dict, `TypeError` when the value is not subscriptable by a
string. -/
def getItem (v : Value) (k : String) : Except Err Value :=
  match v with
  | .dict kvs =>
    match lookupOpt kvs k with
    | some w => .ok w
    | Option.none => .error .keyError
  | _ => .error .typeError

/-- Python `x.items()`: requires a mapping (`AttributeError` otherwise). -/
def itemsOf : Value → Except Err (List (String × Value))
  | .dict kvs => .ok kvs
  | _ => .error .attributeError

namespace ModuleSpec

/-- `ModuleSpec.to_string` from the source: the f-string
`f"{module}:{name}({', '.join(args)}{sep}{', '.join(f'{k}={v}' ...)})"`,
where `sep` is `", "` exactly when both `args` and `kwargs` are truthy.
Note `', '.join(spec['args'])` requires every positional argument to be a
`str` instance — a non-string argument raises `TypeError`. -/
def to_string (spec : Value) : Except Err String := do
  let mv ← getItem spec "module"
  let nv ← getItem spec "name"
  let av ← getItem spec "args"
  let items ← strItems av
  let kv ← getItem spec "kwargs"
  let kwPairs ← itemsOf kv
  .ok (pyStr mv ++ ":" ++ pyStr nv ++ "(" ++ String.intercalate ", " items ++
    (if truthy av && truthy kv then ", " else "") ++
    String.intercalate ", " (kwPairs.map (fun p => p.1 ++ "=" ++ pyStr p.2)) ++ ")")

end ModuleSpec

/-- The loop body of `add_kwarg` from the source, over the already-split
path. At each intermediate name the current node is first replaced by its
`"kwargs"` field when it is spec-shaped, then indexed by the name; at the
final name the same spec-descent applies and the assignment is performed
(`d[key_parts[-1]] = v`). Mutation is modelled by rebuilding the dicts
along the traversed path (config structures are trees, as the source
assumes). Indexing a non-dict with a string raises `TypeError`; a missing
key raises `KeyError`. -/
def addKwargGo : Value → String → List String → Value → Except Err Value
  | d, last, [], v =>
    match d with
    | .dict kvs =>
      if ModuleSpec.is_module_spec (.dict kvs) then
        match lookupOpt kvs "kwargs" with
        | some (.dict kw) =>
          .ok (.dict (setKey kvs "kwargs" (.dict (setKey kw last v))))
        | some _ => .error .typeError
        | Option.none => .error .keyError
      else .ok (.dict (setKey kvs last v))
    | _ => .error .typeError
  | d, p, q :: rest, v =>
    match d with
    | .dict kvs =>
      if ModuleSpec.is_module_spec (.dict kvs) then
        match lookupOpt kvs "kwargs" with
        | some (.dict kw) =>
          match lookupOpt kw p with
          | some child =>
            match addKwargGo child q rest v with
            | .error e => .error e
            | .ok child' =>
              .ok (.dict (setKey kvs "kwargs" (.dict (setKey kw p child'))))
          | Option.none => .error .keyError
        | some _ => .error .typeError
        | Option.none => .error .keyError
      else
        match lookupOpt kvs p with
        | some child =>
          match addKwargGo child q rest v with
          | .error e => .error e
          | .ok child' => .ok (.dict (setKey kvs p child'))
        | Option.none => .error .keyError
    | _ => .error .typeError

/-- `add_kwarg(d, k, v)` from the source: split the dotted path at the
`.` character (code point 46) and run the traversal loop; the split list is
never empty. -/
def add_kwarg (d : Value) (k : String) (v : Value) : Except Err Value :=
  match pySplit (Char.ofNat 46) k with
  | [] => .error .keyError
  | p :: rest => addKwargGo d p rest v

/-- Raw structural lookup along a list of keys: plain dict indexing with no
spec-awareness. Used to state where in the raw structure `add_kwarg` puts
the value and that everything off that raw path is untouched. -/
def rawGet : Value → List String → Option Value
  | d, [] => some d
  | .dict kvs, p :: rest =>
    match lookupOpt kvs p with
    | some c => rawGet c rest
    | Option.none => Option.none
  | _, _ :: _ => Option.none

/-- The traversal of `add_kwarg` without the mutation: follows the same
spec-transparent descent and returns the raw path actually walked (the
given names with the implicit `"kwargs"` descents made explicit) together
with the entries of the mapping reached at the end (the mapping the final
assignment goes into). The last path component is not consumed: it only
names the key assigned in the target mapping. -/
def reachTargetR : Value → String → List String →
    Except Err (List String × List (String × Value))
  | d, _, [] =>
    match d with
    | .dict kvs =>
      if ModuleSpec.is_module_spec (.dict kvs) then
        match lookupOpt kvs "kwargs" with
        | some (.dict kw) => .ok (["kwargs"], kw)
        | some _ => .error .typeError
        | Option.none => .error .keyError
      else .ok ([], kvs)
    | _ => .error .typeError
  | d, p, q :: rest =>
    match d with
    | .dict kvs =>
      if ModuleSpec.is_module_spec (.dict kvs) then
        match lookupOpt kvs "kwargs" with
        | some (.dict kw) =>
          match lookupOpt kw p with
          | some child =>
            match reachTargetR child q rest with
            | .error e => .error e
            | .ok (rp, t) => .ok ("kwargs" :: p :: rp, t)
          | Option.none => .error .keyError
        | some _ => .error .typeError
        | Option.none => .error .keyError
      else
        match lookupOpt kvs p with
        | some child =>
          match reachTargetR child q rest with
          | .error e => .error e
          | .ok (rp, t) => .ok (p :: rp, t)
        | Option.none => .error .keyError
    | _ => .error .typeError

/-- The final name of a dotted path given as head plus tail (the name
assigned by `add_kwarg`). -/
def lastName : String → List String → String
  | p, [] => p
  | _, q :: rest => lastName q rest


/-- The value a guarded `obj["args"]` / `obj["kwargs"]` lookup yields is
structurally smaller than the dict it came from (termination measure for
the recursive instantiator). -/
theorem sizeOf_lookupD_lt (kvs : List (String × Value)) (k : String) :
    sizeOf (lookupD kvs k) < 1 + sizeOf kvs := by
  induction kvs with
  | nil => simp [lookupD, lookupOpt]
  | cons p rest ih =>
    obtain ⟨k', w⟩ := p
    by_cases h : k' = k
    · simp [lookupD, lookupOpt, h]
      omega
    · simp only [lookupD, lookupOpt, if_neg h] at *
      simp only [List.cons.sizeOf_spec, Prod.mk.sizeOf_spec]
      omega

/-- An observable invocation event: the (module, name) pair of the
constructible that was resolved and then called with zero extra
arguments. -/
abbrev Event := String × String

mutual

/-- `recursively_instantiate` from the source, instrumented with the list
of invocation events in the order the constructibles are called (the
events model the observable side effects of calling the constructibles; a
run of the plain source function is the first component). A spec-shaped
dict has its `"args"` and `"kwargs"` fields recursively instantiated (in
that order — the keyword-argument evaluation order of the `ModuleSpec(...)`
call), is then resolved via `ModuleSpec.instantiate`, and the binding is
immediately invoked with zero extra arguments. A non-spec dict is rebuilt
entrywise, a tuple or list is rebuilt elementwise, and anything else —
including a set — falls through unchanged (`return obj`). -/
def recursively_instantiate (reg : Registry) :
    Value → Except Err (Value × List Event)
  | .dict kvs =>
    if ModuleSpec.is_module_spec (.dict kvs) then
      match recursively_instantiate reg (lookupD kvs "args") with
      | .error e => .error e
      | .ok (av, ta) =>
        match recursively_instantiate reg (lookupD kvs "kwargs") with
        | .error e => .error e
        | .ok (kv, tk) =>
          match ModuleSpec.instantiate reg
              (.dict [("module", lookupD kvs "module"),
                      ("name", lookupD kvs "name"),
                      ("args", av), ("kwargs", kv)]) with
          | .error e => .error e
          | .ok Option.none => .error .typeError
          | .ok (some pb) =>
            .ok (callBinding pb [] [], ta ++ tk ++ [(pb.module, pb.name)])
    else
      match riEntries reg kvs with
      | .error e => .error e
      | .ok (kvs', t) => .ok (.dict kvs', t)
  | .list vs =>
    match riList reg vs with
    | .error e => .error e
    | .ok (vs', t) => .ok (.list vs', t)
  | .tuple vs =>
    match riList reg vs with
    | .error e => .error e
    | .ok (vs', t) => .ok (.tuple vs', t)
  | v => .ok (v, [])
termination_by v => sizeOf v
decreasing_by
  · have := sizeOf_lookupD_lt kvs "args"
    simp_wf
    omega
  · have := sizeOf_lookupD_lt kvs "kwargs"
    simp_wf
    omega
  all_goals simp only [Value.dict.sizeOf_spec, Value.list.sizeOf_spec,
    Value.tuple.sizeOf_spec]
  all_goals omega

/-- Elementwise recursive instantiation of a tuple or list (`map` in the
source), sequencing the invocation events left to right. -/
def riList (reg : Registry) :
    List Value → Except Err (List Value × List Event)
  | [] => .ok ([], [])
  | x :: xs =>
    match recursively_instantiate reg x with
    | .error e => .error e
    | .ok (w, t) =>
      match riList reg xs with
      | .error e => .error e
      | .ok (ws, ts) => .ok (w :: ws, t ++ ts)
termination_by vs => sizeOf vs
decreasing_by all_goals (simp_wf <;> omega)

/-- Entrywise recursive instantiation of a non-spec dict (the dict
comprehension in the source), in insertion order. -/
def riEntries (reg : Registry) :
    List (String × Value) → Except Err (List (String × Value) × List Event)
  | [] => .ok ([], [])
  | (k, x) :: xs =>
    match recursively_instantiate reg x with
    | .error e => .error e
    | .ok (w, t) =>
      match riEntries reg xs with
      | .error e => .error e
      | .ok (ws, ts) => .ok ((k, w) :: ws, t ++ ts)
termination_by kvs => sizeOf kvs
decreasing_by all_goals (simp_wf <;> omega)

end

mutual

/-- A structure contains no Spec nodes anywhere: no dict in it (at any
depth, including inside sets) is spec-shaped. -/
def specFree : Value → Bool
  | .dict kvs => !ModuleSpec.is_module_spec (.dict kvs) && specFreeEntries kvs
  | .list vs => specFreeList vs
  | .tuple vs => specFreeList vs
  | .set vs => specFreeList vs
  | _ => true
termination_by v => sizeOf v
decreasing_by all_goals simp_wf

def specFreeList : List Value → Bool
  | [] => true
  | v :: rest => specFree v && specFreeList rest
termination_by vs => sizeOf vs
decreasing_by all_goals (simp_wf <;> omega)

def specFreeEntries : List (String × Value) → Bool
  | [] => true
  | (_, v) :: rest => specFree v && specFreeEntries rest
termination_by kvs => sizeOf kvs
decreasing_by all_goals (simp_wf <;> omega)

end

/-! ### Basic lemmas about the dict model -/

theorem lookupOpt_append (xs ys : List (String × Value)) (k : String) :
    lookupOpt (xs ++ ys) k =
      match lookupOpt xs k with
      | some v => some v
      | Option.none => lookupOpt ys k := by
  induction xs with
  | nil => simp [lookupOpt]
  | cons p rest ih =>
    obtain ⟨k', w⟩ := p
    by_cases h : k' = k <;> simp [lookupOpt, h, ih]

theorem lookupOpt_setKey_self (kvs : List (String × Value)) (k : String)
    (v : Value) : lookupOpt (setKey kvs k v) k = some v := by
  induction kvs with
  | nil => simp [setKey, lookupOpt]
  | cons p rest ih =>
    obtain ⟨k', w⟩ := p
    by_cases h : k' = k <;> simp [setKey, lookupOpt, h, ih]

theorem lookupOpt_setKey_other (kvs : List (String × Value)) (k k' : String)
    (v : Value) (h : k' ≠ k) :
    lookupOpt (setKey kvs k v) k' = lookupOpt kvs k' := by
  induction kvs with
  | nil => simp [setKey, lookupOpt, Ne.symm h]
  | cons p rest ih =>
    obtain ⟨k'', w⟩ := p
    by_cases h2 : k'' = k
    · subst h2
      simp [setKey, lookupOpt, Ne.symm h]
    · by_cases h3 : k'' = k' <;> simp [setKey, lookupOpt, h2, h3, h, ih]

theorem lookupOpt_isSome_iff_mem (kvs : List (String × Value)) (k : String) :
    (lookupOpt kvs k).isSome ↔ k ∈ kvs.map Prod.fst := by
  induction kvs with
  | nil => simp [lookupOpt]
  | cons p rest ih =>
    obtain ⟨k', w⟩ := p
    by_cases h : k' = k
    · subst h
      simp [lookupOpt]
    · simp [lookupOpt, h, ih, Ne.symm h]

theorem lookupOpt_of_mem_nodup (kvs : List (String × Value)) (k : String)
    (v : Value) (hnd : (kvs.map Prod.fst).Nodup) (hmem : (k, v) ∈ kvs) :
    lookupOpt kvs k = some v := by
  induction kvs with
  | nil => simp at hmem
  | cons p rest ih =>
    obtain ⟨k', w⟩ := p
    simp only [List.map_cons, List.nodup_cons] at hnd
    rcases List.mem_cons.mp hmem with h | h
    · injection h with h1 h2
      subst h1
      subst h2
      simp [lookupOpt]
    · have hk : k' ≠ k := by
        intro hkk
        apply hnd.1
        rw [hkk]
        exact List.mem_map.mpr ⟨(k, v), h, rfl⟩
      simp [lookupOpt, hk, ih hnd.2 h]

/-! ### Lemmas about keyword merging (`{**bound, **extra}`) -/

theorem mergeKw_nil (a : List (String × Value)) : mergeKw a [] = a := by
  simp [mergeKw, lookupOpt]

theorem lookupOpt_map_part (a b : List (String × Value)) (k : String) :
    lookupOpt (a.map (fun p => (p.1, (lookupOpt b p.1).getD p.2))) k =
      (lookupOpt a k).map (fun w => (lookupOpt b k).getD w) := by
  induction a with
  | nil => simp [lookupOpt]
  | cons p rest ih =>
    obtain ⟨k', w⟩ := p
    by_cases h : k' = k <;> simp [lookupOpt, h, ih]

theorem lookupOpt_filter_keyTrue (b : List (String × Value))
    (p : String × Value → Bool) (k : String)
    (hp : ∀ w, p (k, w) = true) :
    lookupOpt (b.filter p) k = lookupOpt b k := by
  induction b with
  | nil => simp [lookupOpt]
  | cons q rest ih =>
    obtain ⟨k', w⟩ := q
    by_cases h : k' = k
    · subst h
      simp [List.filter_cons, hp w, lookupOpt, ih]
    · by_cases h2 : p (k', w) <;> simp [List.filter_cons, h2, lookupOpt, h, ih]

theorem lookupOpt_mergeKw_right (a b : List (String × Value)) (k : String)
    (v : Value) (h : lookupOpt b k = some v) :
    lookupOpt (mergeKw a b) k = some v := by
  unfold mergeKw
  rw [lookupOpt_append, lookupOpt_map_part]
  cases ha : lookupOpt a k with
  | some w => simp [h]
  | none =>
    have hf := lookupOpt_filter_keyTrue b
      (fun p => (lookupOpt a p.1).isNone) k (by intro w; simp [ha])
    simp [hf, h]

theorem lookupOpt_mergeKw_left (a b : List (String × Value)) (k : String)
    (h : lookupOpt b k = Option.none) :
    lookupOpt (mergeKw a b) k = lookupOpt a k := by
  unfold mergeKw
  rw [lookupOpt_append, lookupOpt_map_part]
  cases ha : lookupOpt a k with
  | some w => simp [h]
  | none =>
    have hf := lookupOpt_filter_keyTrue b
      (fun p => (lookupOpt a p.1).isNone) k (by intro w; simp [ha])
    simp [hf, h]

/-! ### Resolver-level facts -/

theorem resolverShapeOk_mkSpecDict (m n : String) (args : List Value)
    (kwargs : List (String × Value)) :
    ModuleSpec.resolverShapeOk (ModuleSpec.mkSpecDict m n args kwargs) = true := by
  simp only [ModuleSpec.resolverShapeOk, ModuleSpec.mkSpecDict, List.map_cons,
    List.map_nil, decide_eq_true_eq]
  decide

/-- `instantiate` on a spec built by `create`: the shape check passes and
the outcome is decided by the registry. -/
theorem instantiate_mkSpecDict (reg : Registry) (m n : String)
    (args : List Value) (kwargs : List (String × Value)) :
    ModuleSpec.instantiate reg (ModuleSpec.mkSpecDict m n args kwargs) =
      match reg m n with
      | some f => .ok (some { func := f, args := args, kwargs := kwargs,
                              module := m, name := n })
      | Option.none => .error .resolutionError := by
  have hshape := resolverShapeOk_mkSpecDict m n args kwargs
  simp only [ModuleSpec.mkSpecDict] at hshape ⊢
  cases hr : reg m n <;>
    simp [ModuleSpec.instantiate, hshape, lookupD, lookupOpt, asArgsList,
      asKwargsList, hr]

/-- C1: for a constructible with a discoverable namespace and identifier,
invoking the binding produced by `instantiate(create(C, *args, **kwargs))`
with no extra arguments gives the same result as invoking the constructible
directly on those arguments. -/
theorem c1_create_instantiate_call_eq_direct (reg : Registry) (m n : String)
    (f : Constructible) (args : List Value) (kwargs : List (String × Value))
    (hreg : reg m n = some f) :
    ∃ sp pb,
      ModuleSpec.create (.withAttrs m n) args kwargs = .ok sp ∧
      ModuleSpec.instantiate reg sp = .ok (some pb) ∧
      callBinding pb [] [] = f args kwargs := by
  refine ⟨ModuleSpec.mkSpecDict m n args kwargs,
    { func := f, args := args, kwargs := kwargs, module := m, name := n },
    rfl, ?_, ?_⟩
  · rw [instantiate_mkSpecDict, hreg]
  · simp [callBinding, mergeKw_nil]

def fOuter : Constructible := fun _ kw => .dict kw

def fInner : Constructible := fun _ _ => .int 7

/-- A concrete two-entry registry used by the witnesses. -/
def reg0 : Registry := fun m n =>
  if m == "mo" && n == "no" then some fOuter
  else if m == "mi" && n == "ni" then some fInner
  else Option.none

theorem c1_create_instantiate_call_eq_direct_witness :
    reg0 "mi" "ni" = some fInner ∧
    ∃ sp pb,
      ModuleSpec.create (.withAttrs "mi" "ni") [.int 1, .int 2]
        [("k", .str "v")] = .ok sp ∧
      ModuleSpec.instantiate reg0 sp = .ok (some pb) ∧
      callBinding pb [] [] = fInner [.int 1, .int 2] [("k", .str "v")] :=
  ⟨rfl, c1_create_instantiate_call_eq_direct reg0 "mi" "ni" fInner
    [.int 1, .int 2] [("k", .str "v")] rfl⟩

/-- C7: a binding produced by `instantiate` appends extra positional
arguments after the bound ones and merges extra keyword arguments over the
bound ones, with the call-time value winning a name collision and
non-colliding bound names unaffected. -/
theorem c7_binding_extra_args_append_kwargs_override (reg : Registry)
    (m n : String) (f : Constructible) (args extraArgs : List Value)
    (kwargs extraKwargs : List (String × Value)) (hreg : reg m n = some f) :
    ∃ pb,
      ModuleSpec.instantiate reg (ModuleSpec.mkSpecDict m n args kwargs) =
        .ok (some pb) ∧
      callBinding pb extraArgs extraKwargs =
        f (args ++ extraArgs) (mergeKw kwargs extraKwargs) ∧
      (∀ k v, lookupOpt extraKwargs k = some v →
        lookupOpt (mergeKw kwargs extraKwargs) k = some v) ∧
      (∀ k, lookupOpt extraKwargs k = Option.none →
        lookupOpt (mergeKw kwargs extraKwargs) k = lookupOpt kwargs k) := by
  refine ⟨{ func := f, args := args, kwargs := kwargs, module := m, name := n },
    ?_, rfl, ?_, ?_⟩
  · rw [instantiate_mkSpecDict, hreg]
  · intro k v h
    exact lookupOpt_mergeKw_right kwargs extraKwargs k v h
  · intro k h
    exact lookupOpt_mergeKw_left kwargs extraKwargs k h

theorem c7_binding_extra_args_append_kwargs_override_witness :
    reg0 "mi" "ni" = some fInner ∧
    ∃ pb,
      ModuleSpec.instantiate reg0 (ModuleSpec.mkSpecDict "mi" "ni"
        [.int 1] [("a", .int 2), ("b", .int 3)]) = .ok (some pb) ∧
      callBinding pb [.int 9] [("b", .int 8), ("c", .int 5)] =
        fInner ([.int 1] ++ [.int 9])
          (mergeKw [("a", .int 2), ("b", .int 3)]
            [("b", .int 8), ("c", .int 5)]) ∧
      (∀ k v, lookupOpt [("b", .int 8), ("c", .int 5)] k = some v →
        lookupOpt (mergeKw [("a", .int 2), ("b", .int 3)]
          [("b", .int 8), ("c", .int 5)]) k = some v) ∧
      (∀ k, lookupOpt [("b", .int 8), ("c", .int 5)] k = Option.none →
        lookupOpt (mergeKw [("a", .int 2), ("b", .int 3)]
          [("b", .int 8), ("c", .int 5)]) k =
          lookupOpt [("a", .int 2), ("b", .int 3)] k) :=
  ⟨rfl, c7_binding_extra_args_append_kwargs_override reg0 "mi" "ni" fInner
    [.int 1] [.int 9] [("a", .int 2), ("b", .int 3)]
    [("b", .int 8), ("c", .int 5)] rfl⟩

/-- The splat of the `"args"` field can only fail with `TypeError`. -/
theorem asArgsList_err (v : Value) (e : Err) :
    asArgsList v = .error e → e = .typeError := by
  cases v <;> simp [asArgsList] <;> (intro h; exact h.symm)

/-- The splat of the `"kwargs"` field can only fail with `TypeError`. -/
theorem asKwargsList_err (v : Value) (e : Err) :
    asKwargsList v = .error e → e = .typeError := by
  cases v <;> simp [asKwargsList] <;> (intro h; exact h.symm)

/-- C8: a candidate mapping whose key set is not exactly the four required
fields makes `instantiate` fail with the invalid-spec-shape error whatever
the registry contains (so before any registry lookup); a mapping with
exactly the four fields always passes the shape check (whatever happens
afterwards, it is never the invalid-spec-shape error). -/
theorem c8_shape_check_first (kvs : List (String × Value)) :
    ((kvs.map Prod.fst).toFinset ≠ ModuleSpec.requiredKeys →
      ∀ reg : Registry,
        ModuleSpec.instantiate reg (.dict kvs) = .error .invalidSpecShape) ∧
    ((kvs.map Prod.fst).toFinset = ModuleSpec.requiredKeys →
      ∀ reg : Registry,
        ModuleSpec.instantiate reg (.dict kvs) ≠ .error .invalidSpecShape) := by
  constructor
  · intro h reg
    simp [ModuleSpec.instantiate, ModuleSpec.resolverShapeOk, h]
  · intro h reg
    have hcond : ModuleSpec.resolverShapeOk (.dict kvs) = true := by
      simp [ModuleSpec.resolverShapeOk, h]
    simp only [ModuleSpec.instantiate, hcond, if_true]
    cases hm : lookupD kvs "module" <;> cases hn : lookupD kvs "name" <;> simp
    cases hr : reg _ _ <;> simp
    cases ha : asArgsList (lookupD kvs "args") with
    | error e =>
      have he := asArgsList_err _ _ ha
      subst he
      simp [ha]
    | ok args =>
      cases hk : asKwargsList (lookupD kvs "kwargs") with
      | error e =>
        have he := asKwargsList_err _ _ hk
        subst he
        simp [ha, hk]
      | ok kwargs => simp [ha, hk]

theorem c8_shape_check_first_witness :
    (([("module", Value.str "ns"), ("name", Value.str "Name"),
        ("args", Value.tuple [])].map Prod.fst).toFinset ≠
      ModuleSpec.requiredKeys ∧
      ModuleSpec.instantiate reg0 (.dict [("module", .str "ns"),
        ("name", .str "Name"), ("args", .tuple [])]) =
        .error .invalidSpecShape) ∧
    (([("module", Value.str "mi"), ("name", Value.str "ni"),
        ("args", Value.tuple []), ("kwargs", Value.dict [])].map
        Prod.fst).toFinset = ModuleSpec.requiredKeys ∧
      ModuleSpec.instantiate reg0 (.dict [("module", .str "mi"),
        ("name", .str "ni"), ("args", .tuple []), ("kwargs", .dict [])]) ≠
        .error .invalidSpecShape) :=
  ⟨⟨by decide,
    (c8_shape_check_first [("module", .str "ns"), ("name", .str "Name"),
      ("args", .tuple [])]).1 (by decide) reg0⟩,
   ⟨by decide,
    (c8_shape_check_first [("module", .str "mi"), ("name", .str "ni"),
      ("args", .tuple []), ("kwargs", .dict [])]).2 (by decide) reg0⟩⟩

/-- Keys of a candidate dict are distinct (automatic for a real Python
dict; stated as a hypothesis since the model represents dicts as
association lists). Non-dicts carry no constraint. -/
def dictKeysNodup (v : Value) : Prop :=
  match v with
  | .dict kvs => (kvs.map Prod.fst).Nodup
  | _ => True

theorem is_module_spec_iff_finset (kvs : List (String × Value))
    (hnd : (kvs.map Prod.fst).Nodup) :
    ModuleSpec.is_module_spec (.dict kvs) = true ↔
      (kvs.map Prod.fst).toFinset = ModuleSpec.requiredKeys := by
  simp only [ModuleSpec.is_module_spec, Bool.and_eq_true, beq_iff_eq,
    containsKey, Option.isSome_iff_exists]
  constructor
  · rintro ⟨⟨⟨⟨hm, hn⟩, ha⟩, hk⟩, hlen⟩
    have hmem : ∀ k : String, (∃ w, lookupOpt kvs k = some w) →
        k ∈ (kvs.map Prod.fst).toFinset := by
      intro k ⟨w, hw⟩
      rw [List.mem_toFinset]
      exact (lookupOpt_isSome_iff_mem kvs k).mp (by simp [hw])
    have hsub : ModuleSpec.requiredKeys ⊆ (kvs.map Prod.fst).toFinset := by
      intro k hkmem
      simp only [ModuleSpec.requiredKeys, Finset.mem_insert,
        Finset.mem_singleton] at hkmem
      rcases hkmem with rfl | rfl | rfl | rfl
      · exact hmem _ hm
      · exact hmem _ hn
      · exact hmem _ ha
      · exact hmem _ hk
    have hcard : (kvs.map Prod.fst).toFinset.card ≤
        ModuleSpec.requiredKeys.card := by
      rw [List.toFinset_card_of_nodup hnd, List.length_map, hlen]
      decide
    exact (Finset.eq_of_subset_of_card_le hsub hcard).symm
  · intro heq
    have hmem : ∀ k : String, k ∈ ModuleSpec.requiredKeys →
        ∃ w, lookupOpt kvs k = some w := by
      intro k hkmem
      rw [← heq, List.mem_toFinset] at hkmem
      have := (lookupOpt_isSome_iff_mem kvs k).mpr hkmem
      exact Option.isSome_iff_exists.mp this
    refine ⟨⟨⟨⟨?_, ?_⟩, ?_⟩, ?_⟩, ?_⟩
    · exact hmem "module" (by decide)
    · exact hmem "name" (by decide)
    · exact hmem "args" (by decide)
    · exact hmem "kwargs" (by decide)
    · have : (kvs.map Prod.fst).toFinset.card = ModuleSpec.requiredKeys.card := by
        rw [heq]
      rw [List.toFinset_card_of_nodup hnd, List.length_map] at this
      simpa using this

/-- C2: the Spec-shape predicate of the Resolver (the key-set check of
`instantiate`, `resolverShapeOk`) and `is_module_spec` — the predicate the
Recursive Instantiator (`recursively_instantiate`) and the Override Engine
(`addKwargGo`) branch on, by their definitions — agree on every value with
distinct dict keys, and both accept exactly the dicts whose key set is
exactly the four required fields. -/
theorem c2_spec_shape_predicates_agree (v : Value) (h : dictKeysNodup v) :
    ModuleSpec.resolverShapeOk v = ModuleSpec.is_module_spec v ∧
    (ModuleSpec.is_module_spec v = true ↔
      ∃ kvs, v = .dict kvs ∧
        (kvs.map Prod.fst).toFinset = ModuleSpec.requiredKeys) := by
  cases v with
  | dict kvs =>
    have hnd : (kvs.map Prod.fst).Nodup := h
    have hiff := is_module_spec_iff_finset kvs hnd
    constructor
    · have : ModuleSpec.resolverShapeOk (.dict kvs) = true ↔
          ModuleSpec.is_module_spec (.dict kvs) = true := by
        rw [hiff]
        simp [ModuleSpec.resolverShapeOk]
      cases hr : ModuleSpec.resolverShapeOk (.dict kvs) <;>
        cases hs : ModuleSpec.is_module_spec (.dict kvs) <;>
        simp_all
    · rw [hiff]
      constructor
      · intro hf
        exact ⟨kvs, rfl, hf⟩
      · rintro ⟨kvs', heq, hf⟩
        cases heq
        exact hf
  | str s => simp [ModuleSpec.resolverShapeOk, ModuleSpec.is_module_spec]
  | int i => simp [ModuleSpec.resolverShapeOk, ModuleSpec.is_module_spec]
  | none => simp [ModuleSpec.resolverShapeOk, ModuleSpec.is_module_spec]
  | list vs => simp [ModuleSpec.resolverShapeOk, ModuleSpec.is_module_spec]
  | tuple vs => simp [ModuleSpec.resolverShapeOk, ModuleSpec.is_module_spec]
  | set vs => simp [ModuleSpec.resolverShapeOk, ModuleSpec.is_module_spec]

theorem c2_spec_shape_predicates_agree_witness :
    dictKeysNodup (.dict [("module", .str "mi"), ("name", .str "ni"),
      ("args", .tuple []), ("kwargs", .dict [])]) ∧
    (ModuleSpec.resolverShapeOk (.dict [("module", .str "mi"),
        ("name", .str "ni"), ("args", .tuple []), ("kwargs", .dict [])]) =
      ModuleSpec.is_module_spec (.dict [("module", .str "mi"),
        ("name", .str "ni"), ("args", .tuple []), ("kwargs", .dict [])]) ∧
      (ModuleSpec.is_module_spec (.dict [("module", .str "mi"),
          ("name", .str "ni"), ("args", .tuple []),
          ("kwargs", .dict [])]) = true ↔
        ∃ kvs, Value.dict [("module", .str "mi"), ("name", .str "ni"),
            ("args", .tuple []), ("kwargs", .dict [])] = .dict kvs ∧
          (kvs.map Prod.fst).toFinset = ModuleSpec.requiredKeys)) :=
  ⟨by simp [dictKeysNodup],
   c2_spec_shape_predicates_agree (.dict [("module", .str "mi"),
     ("name", .str "ni"), ("args", .tuple []), ("kwargs", .dict [])])
     (by simp [dictKeysNodup])⟩

/-- `', '.join` on a list of genuine strings succeeds and yields them. -/
theorem strList_map_str (ss : List String) :
    strList (ss.map .str) = .ok ss := by
  induction ss with
  | nil => rfl
  | cons s rest ih => simp [strList, ih]

/-- C3 counterexample: on the exact input of the claim —
`create("ns:Name", 1, 2, x=3)` with integer positional arguments — the
renderer does not return: `', '.join(spec['args'])` raises `TypeError`
because the positional arguments are not strings. -/
theorem c3_render_int_args_raises :
    ModuleSpec.create (.fromString "ns:Name") [.int 1, .int 2]
      [("x", .int 3)] =
      .ok (ModuleSpec.mkSpecDict "ns" "Name" [.int 1, .int 2]
        [("x", .int 3)]) ∧
    ModuleSpec.to_string (ModuleSpec.mkSpecDict "ns" "Name" [.int 1, .int 2]
      [("x", .int 3)]) = .error .typeError := by
  constructor
  · rfl
  · simp [ModuleSpec.to_string, ModuleSpec.mkSpecDict, getItem, lookupOpt,
      strItems, strList, itemsOf, truthy, bind, Except.bind]

/-- C3 amended: when every positional argument is a string, `render`
returns `"<module>:<name>(<args...>, <kw=val...>)"` — args in stored order,
then kwargs in stored order as `name=value` (values via Python `str`),
comma-separated, with the internal separator omitted when either group is
empty; on non-string positional arguments (as in the claim's literal
example, which uses integers) it raises `TypeError` instead. -/
theorem c3_render_format_string_args (m n : String) (ss : List String)
    (kvs : List (String × Value)) :
    ModuleSpec.to_string (ModuleSpec.mkSpecDict m n (ss.map .str) kvs) =
      .ok (m ++ ":" ++ n ++ "(" ++ String.intercalate ", " ss ++
        (if ss.isEmpty || kvs.isEmpty then "" else ", ") ++
        String.intercalate ", "
          (kvs.map (fun p => p.1 ++ "=" ++ pyStr p.2)) ++ ")") := by
  have hs := strList_map_str ss
  rcases ss with - | ⟨s0, srest⟩ <;> rcases kvs with - | ⟨p0, krest⟩ <;>
    simp_all [ModuleSpec.to_string, ModuleSpec.mkSpecDict, getItem, lookupOpt,
      strItems, itemsOf, truthy, pyStr, bind, Except.bind]

/-- A concrete Spec dict resolving to `fInner` in `reg0`. -/
def specMi : Value :=
  .dict [("module", .str "mi"), ("name", .str "ni"),
         ("args", .tuple []), ("kwargs", .dict [])]

/-- A successful elementwise instantiation of a list relates input and
output pointwise: same length, and each output element is the materialized
form of the input element at the same position. -/
theorem riList_ok_pointwise (reg : Registry) (vs ws : List Value)
    (t : List Event) (h : riList reg vs = .ok (ws, t)) :
    ws.length = vs.length ∧
      ∀ i (h1 : i < vs.length) (h2 : i < ws.length),
        ∃ ti, recursively_instantiate reg (vs.get ⟨i, h1⟩) =
          .ok (ws.get ⟨i, h2⟩, ti) := by
  induction vs generalizing ws t with
  | nil =>
    simp only [riList] at h
    obtain ⟨h1, h2⟩ := Except.ok.injEq .. ▸ h
    cases h
    exact ⟨rfl, fun i h1 h2 => absurd h1 (by simp)⟩
  | cons x xs ih =>
    simp only [riList] at h
    cases hx : recursively_instantiate reg x with
    | error e => rw [hx] at h; exact absurd h (by simp)
    | ok p =>
      obtain ⟨w0, t0⟩ := p
      rw [hx] at h
      cases hr : riList reg xs with
      | error e => rw [hr] at h; exact absurd h (by simp)
      | ok q =>
        obtain ⟨ws0, ts⟩ := q
        rw [hr] at h
        simp only [Except.ok.injEq, Prod.mk.injEq] at h
        obtain ⟨hw, ht⟩ := h
        cases hw
        obtain ⟨hlen, hpt⟩ := ih ws0 ts hr
        refine ⟨by simp [hlen], ?_⟩
        intro i h1 h2
        cases i with
        | zero => exact ⟨t0, hx⟩
        | succ j =>
          simp only [List.length_cons, Nat.succ_lt_succ_iff] at h1 h2
          exact hpt j h1 h2

/-- A successful elementwise instantiation of a (non-spec) dict preserves
the keys in order and materializes each value in place. -/
theorem riEntries_ok_pointwise (reg : Registry)
    (kvs ws : List (String × Value)) (t : List Event)
    (h : riEntries reg kvs = .ok (ws, t)) :
    ws.map Prod.fst = kvs.map Prod.fst ∧
      ∀ i (h1 : i < kvs.length) (h2 : i < ws.length),
        ∃ ti, recursively_instantiate reg (kvs.get ⟨i, h1⟩).2 =
          .ok ((ws.get ⟨i, h2⟩).2, ti) := by
  induction kvs generalizing ws t with
  | nil =>
    simp only [riEntries] at h
    obtain ⟨h1, h2⟩ := Except.ok.injEq .. ▸ h
    cases h
    exact ⟨rfl, fun i h1 h2 => absurd h1 (by simp)⟩
  | cons p rest ih =>
    obtain ⟨k, x⟩ := p
    simp only [riEntries] at h
    cases hx : recursively_instantiate reg x with
    | error e => rw [hx] at h; exact absurd h (by simp)
    | ok p' =>
      obtain ⟨w0, t0⟩ := p'
      rw [hx] at h
      cases hr : riEntries reg rest with
      | error e => rw [hr] at h; exact absurd h (by simp)
      | ok q =>
        obtain ⟨ws0, ts⟩ := q
        rw [hr] at h
        simp only [Except.ok.injEq, Prod.mk.injEq] at h
        obtain ⟨hw, ht⟩ := h
        cases hw
        obtain ⟨hkeys, hpt⟩ := ih ws0 ts hr
        refine ⟨by simp [hkeys], ?_⟩
        intro i h1 h2
        cases i with
        | zero => exact ⟨t0, hx⟩
        | succ j =>
          simp only [List.length_cons, Nat.succ_lt_succ_iff] at h1 h2
          exact hpt j h1 h2

/-- C4 counterexample: a set is NOT reconstructed with materialized
elements — it falls through the instantiator unchanged (the
`isinstance(obj, (tuple, list))` test does not cover sets), although its
element is a Spec that on its own materializes to `7` with an invocation
event. So the output set still contains the raw Spec, not the constructed
object the claim requires. -/
theorem c4_set_passthrough_counterexample :
    recursively_instantiate reg0 (.set [specMi]) = .ok (.set [specMi], []) ∧
    recursively_instantiate reg0 specMi = .ok (.int 7, [("mi", "ni")]) ∧
    Value.set [specMi] ≠ Value.set [.int 7] := by
  refine ⟨by simp [recursively_instantiate], ?_, by simp [specMi]⟩
  simp [recursively_instantiate, riEntries, riList, specMi, lookupD, lookupOpt,
    ModuleSpec.is_module_spec, ModuleSpec.instantiate, ModuleSpec.resolverShapeOk,
    ModuleSpec.requiredKeys, containsKey, asArgsList, asKwargsList, reg0,
    fInner, callBinding, mergeKw]

/-- C4 amended: `materialize` reconstructs ordered sequences (tuples and
lists) and key-value mappings with each element independently
materialized (same shape, same keys/positions); a set, however, is NOT
reconstructed: it is returned unchanged with no events, so a Spec sitting
inside a set is not resolved (in the host language this cannot arise
anyway: a Spec is an unhashable mapping, so no set can contain one). -/
theorem c4_container_shapes (reg : Registry) :
    (∀ vs : List Value,
      recursively_instantiate reg (.set vs) = .ok (.set vs, [])) ∧
    (∀ vs w t, recursively_instantiate reg (.list vs) = .ok (w, t) →
      ∃ ws, w = .list ws ∧ ws.length = vs.length ∧
        ∀ i (h1 : i < vs.length) (h2 : i < ws.length),
          ∃ ti, recursively_instantiate reg (vs.get ⟨i, h1⟩) =
            .ok (ws.get ⟨i, h2⟩, ti)) ∧
    (∀ vs w t, recursively_instantiate reg (.tuple vs) = .ok (w, t) →
      ∃ ws, w = .tuple ws ∧ ws.length = vs.length ∧
        ∀ i (h1 : i < vs.length) (h2 : i < ws.length),
          ∃ ti, recursively_instantiate reg (vs.get ⟨i, h1⟩) =
            .ok (ws.get ⟨i, h2⟩, ti)) ∧
    (∀ kvs w t, ModuleSpec.is_module_spec (.dict kvs) = false →
      recursively_instantiate reg (.dict kvs) = .ok (w, t) →
      ∃ ws : List (String × Value), w = .dict ws ∧
        ws.map Prod.fst = kvs.map Prod.fst ∧
        ∀ i (h1 : i < kvs.length) (h2 : i < ws.length),
          ∃ ti, recursively_instantiate reg (kvs.get ⟨i, h1⟩).2 =
            .ok ((ws.get ⟨i, h2⟩).2, ti)) := by
  refine ⟨fun vs => by simp [recursively_instantiate], ?_, ?_, ?_⟩
  · intro vs w t h
    simp only [recursively_instantiate] at h
    cases hr : riList reg vs with
    | error e => rw [hr] at h; exact absurd h (by simp)
    | ok q =>
      obtain ⟨ws, ts⟩ := q
      rw [hr] at h
      simp only [Except.ok.injEq, Prod.mk.injEq] at h
      obtain ⟨hw, ht⟩ := h
      obtain ⟨hlen, hpt⟩ := riList_ok_pointwise reg vs ws ts hr
      exact ⟨ws, hw.symm, hlen, hpt⟩
  · intro vs w t h
    simp only [recursively_instantiate] at h
    cases hr : riList reg vs with
    | error e => rw [hr] at h; exact absurd h (by simp)
    | ok q =>
      obtain ⟨ws, ts⟩ := q
      rw [hr] at h
      simp only [Except.ok.injEq, Prod.mk.injEq] at h
      obtain ⟨hw, ht⟩ := h
      obtain ⟨hlen, hpt⟩ := riList_ok_pointwise reg vs ws ts hr
      exact ⟨ws, hw.symm, hlen, hpt⟩
  · intro kvs w t hns h
    simp only [recursively_instantiate, hns, Bool.false_eq_true, if_false] at h
    cases hr : riEntries reg kvs with
    | error e => rw [hr] at h; exact absurd h (by simp)
    | ok q =>
      obtain ⟨ws, ts⟩ := q
      rw [hr] at h
      simp only [Except.ok.injEq, Prod.mk.injEq] at h
      obtain ⟨hw, ht⟩ := h
      obtain ⟨hkeys, hpt⟩ := riEntries_ok_pointwise reg kvs ws ts hr
      exact ⟨ws, hw.symm, hkeys, hpt⟩

theorem c4_container_shapes_witness :
    recursively_instantiate reg0 (.list [specMi]) =
      .ok (.list [.int 7], [("mi", "ni")]) ∧
    (∃ ws, Value.list [.int 7] = .list ws ∧
      ws.length = [specMi].length ∧
      ∀ i (h1 : i < [specMi].length) (h2 : i < ws.length),
        ∃ ti, recursively_instantiate reg0 ([specMi].get ⟨i, h1⟩) =
          .ok (ws.get ⟨i, h2⟩, ti)) :=
  have hlist : recursively_instantiate reg0 (.list [specMi]) =
      .ok (.list [.int 7], [("mi", "ni")]) := by
    simp [recursively_instantiate, riEntries, riList, specMi, lookupD,
      lookupOpt, ModuleSpec.is_module_spec, ModuleSpec.instantiate,
      ModuleSpec.resolverShapeOk, ModuleSpec.requiredKeys, containsKey,
      asArgsList, asKwargsList, reg0, fInner, callBinding, mergeKw]
  ⟨hlist, (c4_container_shapes reg0).2.1 [specMi] (.list [.int 7])
    [("mi", "ni")] hlist⟩

theorem ri_specFree_aux (N : Nat) :
    (∀ (reg : Registry) (v : Value), sizeOf v ≤ N → specFree v = true →
      recursively_instantiate reg v = .ok (v, [])) ∧
    (∀ (reg : Registry) (vs : List Value), sizeOf vs ≤ N →
      specFreeList vs = true → riList reg vs = .ok (vs, [])) ∧
    (∀ (reg : Registry) (kvs : List (String × Value)), sizeOf kvs ≤ N →
      specFreeEntries kvs = true → riEntries reg kvs = .ok (kvs, [])) := by
  induction N using Nat.strong_induction_on with
  | _ N ih =>
    refine ⟨?_, ?_, ?_⟩
    · intro reg v hsz hsf
      cases v with
      | dict kvs =>
        simp only [specFree, Bool.and_eq_true, Bool.not_eq_true'] at hsf
        have hlt : sizeOf kvs < N := by
          have h1 : sizeOf (Value.dict kvs) = 1 + sizeOf kvs := by simp
          omega
        have hrec := (ih (sizeOf kvs) hlt).2.2 reg kvs le_rfl hsf.2
        simp [recursively_instantiate, hsf.1, hrec]
      | list vs =>
        simp only [specFree] at hsf
        have hlt : sizeOf vs < N := by
          have h1 : sizeOf (Value.list vs) = 1 + sizeOf vs := by simp
          omega
        have hrec := (ih (sizeOf vs) hlt).2.1 reg vs le_rfl hsf
        simp [recursively_instantiate, hrec]
      | tuple vs =>
        simp only [specFree] at hsf
        have hlt : sizeOf vs < N := by
          have h1 : sizeOf (Value.tuple vs) = 1 + sizeOf vs := by simp
          omega
        have hrec := (ih (sizeOf vs) hlt).2.1 reg vs le_rfl hsf
        simp [recursively_instantiate, hrec]
      | set vs => simp [recursively_instantiate]
      | str s => simp [recursively_instantiate]
      | int i => simp [recursively_instantiate]
      | none => simp [recursively_instantiate]
    · intro reg vs hsz hsf
      cases vs with
      | nil => simp [riList]
      | cons x xs =>
        simp only [specFreeList, Bool.and_eq_true] at hsf
        have hszc : sizeOf (x :: xs) = 1 + sizeOf x + sizeOf xs := by simp
        have hx := (ih (sizeOf x) (by omega)).1 reg x le_rfl hsf.1
        have hxs := (ih (sizeOf xs) (by omega)).2.1 reg xs le_rfl hsf.2
        simp [riList, hx, hxs]
    · intro reg kvs hsf
      cases kvs with
      | nil => simp [riEntries]
      | cons p rest =>
        obtain ⟨k, x⟩ := p
        intro hfree
        simp only [specFreeEntries, Bool.and_eq_true] at hfree
        have hszc : sizeOf ((k, x) :: rest) =
            1 + (1 + sizeOf k + sizeOf x) + sizeOf rest := by simp
        have hx := (ih (sizeOf x) (by omega)).1 reg x le_rfl hfree.1
        have hxs := (ih (sizeOf rest) (by omega)).2.2 reg rest le_rfl hfree.2
        simp [riEntries, hx, hxs]

/-- C9: `materialize` is the identity (and invokes nothing) on any
container/scalar structure containing no Spec nodes anywhere. -/
theorem c9_materialize_id_on_spec_free (reg : Registry) (v : Value)
    (h : specFree v = true) :
    recursively_instantiate reg v = .ok (v, []) :=
  (ri_specFree_aux (sizeOf v)).1 reg v le_rfl h

theorem c9_materialize_id_on_spec_free_witness :
    specFree (.dict [("a", .list [.int 1, .str "s"]),
      ("b", .set [.none]), ("c", .tuple [.dict []])]) = true ∧
    recursively_instantiate reg0 (.dict [("a", .list [.int 1, .str "s"]),
      ("b", .set [.none]), ("c", .tuple [.dict []])]) =
      .ok (.dict [("a", .list [.int 1, .str "s"]),
        ("b", .set [.none]), ("c", .tuple [.dict []])], []) :=
  have hf : specFree (.dict [("a", .list [.int 1, .str "s"]),
      ("b", .set [.none]), ("c", .tuple [.dict []])]) = true := by
    simp [specFree, specFreeList, specFreeEntries, ModuleSpec.is_module_spec,
      containsKey, lookupOpt]
  ⟨hf, c9_materialize_id_on_spec_free reg0 _ hf⟩

/-- A successful resolution of a four-field dict forces the module and
name fields to be strings, and records them in the binding. -/
theorem instantiate_fourdict_ok_fields (reg : Registry) (mv nv av kv : Value)
    (pb : ResolvedBinding)
    (hok : ModuleSpec.instantiate reg (.dict [("module", mv), ("name", nv),
      ("args", av), ("kwargs", kv)]) = .ok (some pb)) :
    mv = .str pb.module ∧ nv = .str pb.name := by
  have hshape : ModuleSpec.resolverShapeOk (.dict [("module", mv),
      ("name", nv), ("args", av), ("kwargs", kv)]) = true := by
    simp only [ModuleSpec.resolverShapeOk, List.map_cons, List.map_nil,
      decide_eq_true_eq]
    decide
  simp only [ModuleSpec.instantiate, hshape, if_true] at hok
  have hml : lookupD [("module", mv), ("name", nv), ("args", av),
      ("kwargs", kv)] "module" = mv := by simp [lookupD, lookupOpt]
  have hnl : lookupD [("module", mv), ("name", nv), ("args", av),
      ("kwargs", kv)] "name" = nv := by simp [lookupD, lookupOpt]
  rw [hml, hnl] at hok
  cases mv <;> cases nv <;> simp_all
  case str.str m n =>
    cases hr : reg m n with
    | none => rw [hr] at hok; exact absurd hok (by simp)
    | some f =>
      rw [hr] at hok
      cases ha : asArgsList (lookupD [("module", .str m), ("name", .str n),
          ("args", av), ("kwargs", kv)] "args") with
      | error e => rw [ha] at hok; exact absurd hok (by simp)
      | ok args =>
        rw [ha] at hok
        cases hk : asKwargsList (lookupD [("module", .str m),
            ("name", .str n), ("args", av), ("kwargs", kv)] "kwargs") with
        | error e => rw [hk] at hok; exact absurd hok (by simp)
        | ok kwargs =>
          rw [hk] at hok
          simp only [Except.ok.injEq, Option.some.injEq] at hok
          rw [← hok]
          exact ⟨rfl, rfl⟩

/-- Decomposition of a successful materialization of a spec-shaped dict:
the module and name fields are strings (resolution would fail otherwise),
the args and kwargs fields materialize first, and the trace is their
traces followed by the outer invocation event — which comes last. -/
theorem ri_spec_ok_decomp (reg : Registry) (kvs : List (String × Value))
    (hspec : ModuleSpec.is_module_spec (.dict kvs) = true)
    (res : Value) (tr : List Event)
    (hok : recursively_instantiate reg (.dict kvs) = .ok (res, tr)) :
    ∃ m n av ta kv tk,
      lookupD kvs "module" = .str m ∧ lookupD kvs "name" = .str n ∧
      recursively_instantiate reg (lookupD kvs "args") = .ok (av, ta) ∧
      recursively_instantiate reg (lookupD kvs "kwargs") = .ok (kv, tk) ∧
      tr = ta ++ tk ++ [(m, n)] := by
  simp only [recursively_instantiate, hspec, if_true] at hok
  cases hA : recursively_instantiate reg (lookupD kvs "args") with
  | error e => rw [hA] at hok; exact absurd hok (by simp)
  | ok pA =>
    obtain ⟨av, ta⟩ := pA
    rw [hA] at hok
    dsimp only at hok
    cases hK : recursively_instantiate reg (lookupD kvs "kwargs") with
    | error e => rw [hK] at hok; exact absurd hok (by simp)
    | ok pK =>
      obtain ⟨kv, tk⟩ := pK
      rw [hK] at hok
      dsimp only at hok
      cases hI : ModuleSpec.instantiate reg
          (.dict [("module", lookupD kvs "module"),
                  ("name", lookupD kvs "name"),
                  ("args", av), ("kwargs", kv)]) with
      | error e => rw [hI] at hok; exact absurd hok (by simp)
      | ok ob =>
        cases ob with
        | none => rw [hI] at hok; exact absurd hok (by simp)
        | some pb =>
          rw [hI] at hok
          simp only [Except.ok.injEq, Prod.mk.injEq] at hok
          obtain ⟨hres, htr⟩ := hok
          obtain ⟨hm, hn⟩ := instantiate_fourdict_ok_fields reg _ _ _ _ pb hI
          exact ⟨pb.module, pb.name, av, ta, kv, tk, hm, hn, rfl, rfl,
            htr.symm⟩

/-- Each element of a successfully materialized list contributes its own
trace as an infix of the list's trace. -/
theorem riList_mem_trace (reg : Registry) (vs ws : List Value)
    (t : List Event) (x : Value) (h : riList reg vs = .ok (ws, t))
    (hmem : x ∈ vs) :
    ∃ w tx t1 t2, recursively_instantiate reg x = .ok (w, tx) ∧
      t = t1 ++ tx ++ t2 := by
  induction vs generalizing ws t with
  | nil => simp at hmem
  | cons y ys ih =>
    simp only [riList] at h
    cases hy : recursively_instantiate reg y with
    | error e => rw [hy] at h; exact absurd h (by simp)
    | ok p =>
      obtain ⟨w0, t0⟩ := p
      rw [hy] at h
      cases hr : riList reg ys with
      | error e => rw [hr] at h; exact absurd h (by simp)
      | ok q =>
        obtain ⟨ws0, ts⟩ := q
        rw [hr] at h
        simp only [Except.ok.injEq, Prod.mk.injEq] at h
        obtain ⟨hw, ht⟩ := h
        rcases List.mem_cons.mp hmem with rfl | hmem'
        · exact ⟨w0, t0, [], ts, hy, by simp [← ht]⟩
        · obtain ⟨w, tx, t1, t2, hxok, hts⟩ := ih ws0 ts hr hmem'
          exact ⟨w, tx, t0 ++ t1, t2, hxok, by simp [← ht, hts]⟩

/-- Each entry of a successfully materialized (non-spec) dict contributes
its own trace as an infix of the dict's trace. -/
theorem riEntries_mem_trace (reg : Registry)
    (kvs ws : List (String × Value)) (t : List Event) (k : String)
    (x : Value) (h : riEntries reg kvs = .ok (ws, t)) (hmem : (k, x) ∈ kvs) :
    ∃ w tx t1 t2, recursively_instantiate reg x = .ok (w, tx) ∧
      t = t1 ++ tx ++ t2 := by
  induction kvs generalizing ws t with
  | nil => simp at hmem
  | cons p rest ih =>
    obtain ⟨k0, y⟩ := p
    simp only [riEntries] at h
    cases hy : recursively_instantiate reg y with
    | error e => rw [hy] at h; exact absurd h (by simp)
    | ok p' =>
      obtain ⟨w0, t0⟩ := p'
      rw [hy] at h
      cases hr : riEntries reg rest with
      | error e => rw [hr] at h; exact absurd h (by simp)
      | ok q =>
        obtain ⟨ws0, ts⟩ := q
        rw [hr] at h
        simp only [Except.ok.injEq, Prod.mk.injEq] at h
        obtain ⟨hw, ht⟩ := h
        rcases List.mem_cons.mp hmem with heq | hmem'
        · injection heq with hk hx
          subst hx
          exact ⟨w0, t0, [], ts, hy, by simp [← ht]⟩
        · obtain ⟨w, tx, t1, t2, hxok, hts⟩ := ih ws0 ts hr hmem'
          exact ⟨w, tx, t0 ++ t1, t2, hxok, by simp [← ht, hts]⟩

/-- With distinct keys, any key of a spec-shaped dict is one of the four
required field names. -/
theorem mem_keys_of_spec_nodup (kw : List (String × Value)) (k : String)
    (x : Value) (hspec : ModuleSpec.is_module_spec (.dict kw) = true)
    (hnd : (kw.map Prod.fst).Nodup) (hmem : (k, x) ∈ kw) :
    k = "module" ∨ k = "name" ∨ k = "args" ∨ k = "kwargs" := by
  have hfin := (is_module_spec_iff_finset kw hnd).mp hspec
  have hk : k ∈ (kw.map Prod.fst).toFinset := by
    rw [List.mem_toFinset]
    exact List.mem_map.mpr ⟨(k, x), hmem, rfl⟩
  rw [hfin] at hk
  simpa [ModuleSpec.requiredKeys] using hk

/-- A non-spec dict materializes through `riEntries`. -/
theorem ri_dict_nonspec_ok (reg : Registry) (kvs : List (String × Value))
    (res : Value) (tr : List Event)
    (hns : ModuleSpec.is_module_spec (.dict kvs) = false)
    (hok : recursively_instantiate reg (.dict kvs) = .ok (res, tr)) :
    ∃ ws, riEntries reg kvs = .ok (ws, tr) ∧ res = .dict ws := by
  simp only [recursively_instantiate, hns, Bool.false_eq_true, if_false] at hok
  cases hre : riEntries reg kvs with
  | error e => rw [hre] at hok; exact absurd hok (by simp)
  | ok q =>
    obtain ⟨ws, ts⟩ := q
    rw [hre] at hok
    simp only [Except.ok.injEq, Prod.mk.injEq] at hok
    exact ⟨ws, by rw [hok.2], hok.1.symm⟩

/-- A tuple materializes through `riList`. -/
theorem ri_tuple_ok (reg : Registry) (vs : List Value) (res : Value)
    (tr : List Event)
    (hok : recursively_instantiate reg (.tuple vs) = .ok (res, tr)) :
    ∃ ws, riList reg vs = .ok (ws, tr) ∧ res = .tuple ws := by
  simp only [recursively_instantiate] at hok
  cases hre : riList reg vs with
  | error e => rw [hre] at hok; exact absurd hok (by simp)
  | ok q =>
    obtain ⟨ws, ts⟩ := q
    rw [hre] at hok
    simp only [Except.ok.injEq, Prod.mk.injEq] at hok
    exact ⟨ws, by rw [hok.2], hok.1.symm⟩

/-- A list materializes through `riList`. -/
theorem ri_list_ok (reg : Registry) (vs : List Value) (res : Value)
    (tr : List Event)
    (hok : recursively_instantiate reg (.list vs) = .ok (res, tr)) :
    ∃ ws, riList reg vs = .ok (ws, tr) ∧ res = .list ws := by
  simp only [recursively_instantiate] at hok
  cases hre : riList reg vs with
  | error e => rw [hre] at hok; exact absurd hok (by simp)
  | ok q =>
    obtain ⟨ws, ts⟩ := q
    rw [hre] at hok
    simp only [Except.ok.injEq, Prod.mk.injEq] at hok
    exact ⟨ws, by rw [hok.2], hok.1.symm⟩

/-- A successfully materialized spec-shaped dict always emits its own
invocation event (as the last event of its trace). -/
theorem ri_spec_event_mem (reg : Registry) (ikvs : List (String × Value))
    (im inm : String) (res : Value) (tr : List Event)
    (hispec : ModuleSpec.is_module_spec (.dict ikvs) = true)
    (him : lookupD ikvs "module" = .str im)
    (hin : lookupD ikvs "name" = .str inm)
    (hok : recursively_instantiate reg (.dict ikvs) = .ok (res, tr)) :
    (im, inm) ∈ tr := by
  obtain ⟨m, n, av, ta, kv, tk, hm', hn', _, _, htr⟩ :=
    ri_spec_ok_decomp reg ikvs hispec res tr hok
  have h1 : Value.str m = Value.str im := hm'.symm.trans him
  have h2 : Value.str n = Value.str inm := hn'.symm.trans hin
  injection h1 with h1
  injection h2 with h2
  subst h1
  subst h2
  simp [htr]

/-- C5: when a Spec's args or kwargs contain a nested Spec and the whole
materialization succeeds, the inner Spec's constructible is invoked
strictly before the outer one: the outer invocation event closes the
trace, and the inner invocation event occurs in the trace before it.
(The outer Spec is resolved on the already-materialized args/kwargs and
invoked with zero extra arguments — the shape of the trace given by
`ri_spec_ok_decomp`.) -/
theorem c5_inner_invoked_before_outer (reg : Registry)
    (kvs ikvs : List (String × Value)) (om onm im inm : String)
    (hspec : ModuleSpec.is_module_spec (.dict kvs) = true)
    (hm : lookupD kvs "module" = .str om)
    (hn : lookupD kvs "name" = .str onm)
    (hispec : ModuleSpec.is_module_spec (.dict ikvs) = true)
    (him : lookupD ikvs "module" = .str im)
    (hin : lookupD ikvs "name" = .str inm)
    (hcont :
      (∃ kw k, lookupD kvs "kwargs" = .dict kw ∧ (kw.map Prod.fst).Nodup ∧
        (k, .dict ikvs) ∈ kw) ∨
      (∃ avs, (lookupD kvs "args" = .tuple avs ∨
        lookupD kvs "args" = .list avs) ∧ .dict ikvs ∈ avs))
    (res : Value) (tr : List Event)
    (hok : recursively_instantiate reg (.dict kvs) = .ok (res, tr)) :
    ∃ t1, tr = t1 ++ [(om, onm)] ∧ (im, inm) ∈ t1 := by
  obtain ⟨m, n, av, ta, kv, tk, hm', hn', hA, hK, htr⟩ :=
    ri_spec_ok_decomp reg kvs hspec res tr hok
  have h1 : Value.str m = Value.str om := hm'.symm.trans hm
  have h2 : Value.str n = Value.str onm := hn'.symm.trans hn
  injection h1 with h1
  injection h2 with h2
  subst h1
  subst h2
  refine ⟨ta ++ tk, by simp [htr], ?_⟩
  rcases hcont with ⟨kw, k, hkw, hnd, hmem⟩ | ⟨avs, havs, hmemA⟩
  · rw [hkw] at hK
    have hlook := lookupOpt_of_mem_nodup kw k _ hnd hmem
    by_cases hkwspec : ModuleSpec.is_module_spec (.dict kw) = true
    · obtain ⟨m2, n2, av2, ta2, kv2, tk2, hm2, hn2, hA2, hK2, htr2⟩ :=
        ri_spec_ok_decomp reg kw hkwspec kv tk hK
      rcases mem_keys_of_spec_nodup kw k _ hkwspec hnd hmem with
        rfl | rfl | rfl | rfl
      · rw [lookupD, hlook] at hm2
        exact absurd hm2 (by simp)
      · rw [lookupD, hlook] at hn2
        exact absurd hn2 (by simp)
      · have hargs : lookupD kw "args" = .dict ikvs := by
          simp [lookupD, hlook]
        rw [hargs] at hA2
        have hev := ri_spec_event_mem reg ikvs im inm av2 ta2 hispec him hin hA2
        have : (im, inm) ∈ tk := by
          rw [htr2]
          simp [hev]
        simp [this]
      · have hkwf : lookupD kw "kwargs" = .dict ikvs := by
          simp [lookupD, hlook]
        rw [hkwf] at hK2
        have hev := ri_spec_event_mem reg ikvs im inm kv2 tk2 hispec him hin hK2
        have : (im, inm) ∈ tk := by
          rw [htr2]
          simp [hev]
        simp [this]
    · have hns : ModuleSpec.is_module_spec (.dict kw) = false :=
        Bool.not_eq_true _ ▸ eq_false_of_ne_true hkwspec
      obtain ⟨ws, hre, hkvres⟩ := ri_dict_nonspec_ok reg kw kv tk hns hK
      obtain ⟨w, tx, u1, u2, hinner, htk⟩ :=
        riEntries_mem_trace reg kw ws tk k (.dict ikvs) hre hmem
      have hev := ri_spec_event_mem reg ikvs im inm w tx hispec him hin hinner
      have : (im, inm) ∈ tk := by
        rw [htk]
        simp [hev]
      simp [this]
  · rcases havs with hT | hT
    · rw [hT] at hA
      obtain ⟨ws, hre, hres⟩ := ri_tuple_ok reg avs av ta hA
      obtain ⟨w, tx, u1, u2, hinner, hta⟩ :=
        riList_mem_trace reg avs ws ta (.dict ikvs) hre hmemA
      have hev := ri_spec_event_mem reg ikvs im inm w tx hispec him hin hinner
      have : (im, inm) ∈ ta := by
        rw [hta]
        simp [hev]
      simp [this]
    · rw [hT] at hA
      obtain ⟨ws, hre, hres⟩ := ri_list_ok reg avs av ta hA
      obtain ⟨w, tx, u1, u2, hinner, hta⟩ :=
        riList_mem_trace reg avs ws ta (.dict ikvs) hre hmemA
      have hev := ri_spec_event_mem reg ikvs im inm w tx hispec him hin hinner
      have : (im, inm) ∈ ta := by
        rw [hta]
        simp [hev]
      simp [this]

/-- Forward evaluation rules for the instrumented instantiator. They let
concrete runs be assembled step by step (each step applied at already
evaluated sub-results), instead of unfolding the well-founded recursion on
a deep concrete input in one go. -/
theorem riList_nil_eq (reg : Registry) : riList reg [] = .ok ([], []) := by
  simp [riList]

theorem riEntries_nil_eq (reg : Registry) : riEntries reg [] = .ok ([], []) := by
  simp [riEntries]

theorem riEntries_cons_eq (reg : Registry) (k : String) (x : Value)
    (rest : List (String × Value)) (w : Value) (tx : List Event)
    (ws : List (String × Value)) (ts : List Event)
    (hx : recursively_instantiate reg x = .ok (w, tx))
    (hr : riEntries reg rest = .ok (ws, ts)) :
    riEntries reg ((k, x) :: rest) = .ok ((k, w) :: ws, tx ++ ts) := by
  simp [riEntries, hx, hr]

theorem ri_tuple_eq (reg : Registry) (vs ws : List Value) (t : List Event)
    (h : riList reg vs = .ok (ws, t)) :
    recursively_instantiate reg (.tuple vs) = .ok (.tuple ws, t) := by
  simp [recursively_instantiate, h]

theorem ri_dict_nonspec_eq (reg : Registry) (kvs ws : List (String × Value))
    (t : List Event) (hns : ModuleSpec.is_module_spec (.dict kvs) = false)
    (he : riEntries reg kvs = .ok (ws, t)) :
    recursively_instantiate reg (.dict kvs) = .ok (.dict ws, t) := by
  simp [recursively_instantiate, hns, he]

theorem ri_spec_eq_steps (reg : Registry) (kvs : List (String × Value))
    (av : Value) (ta : List Event) (kv : Value) (tk : List Event)
    (pb : ResolvedBinding)
    (hspec : ModuleSpec.is_module_spec (.dict kvs) = true)
    (ha : recursively_instantiate reg (lookupD kvs "args") = .ok (av, ta))
    (hk : recursively_instantiate reg (lookupD kvs "kwargs") = .ok (kv, tk))
    (hi : ModuleSpec.instantiate reg
      (.dict [("module", lookupD kvs "module"),
              ("name", lookupD kvs "name"),
              ("args", av), ("kwargs", kv)]) = .ok (some pb)) :
    recursively_instantiate reg (.dict kvs) =
      .ok (callBinding pb [] [], ta ++ tk ++ [(pb.module, pb.name)]) := by
  simp [recursively_instantiate, hspec, ha, hk, hi]

def innerKvs : List (String × Value) :=
  [("module", .str "mi"), ("name", .str "ni"),
   ("args", .tuple []), ("kwargs", .dict [])]

def outerKvs : List (String × Value) :=
  [("module", .str "mo"), ("name", .str "no"),
   ("args", .tuple []), ("kwargs", .dict [("x", .dict innerKvs)])]

theorem c5_inner_invoked_before_outer_witness :
    ModuleSpec.is_module_spec (.dict outerKvs) = true ∧
    lookupD outerKvs "module" = .str "mo" ∧
    lookupD outerKvs "name" = .str "no" ∧
    ModuleSpec.is_module_spec (.dict innerKvs) = true ∧
    lookupD innerKvs "module" = .str "mi" ∧
    lookupD innerKvs "name" = .str "ni" ∧
    lookupD outerKvs "kwargs" = .dict [("x", .dict innerKvs)] ∧
    recursively_instantiate reg0 (.dict outerKvs) =
      .ok (.dict [("x", .int 7)], [("mi", "ni"), ("mo", "no")]) ∧
    ∃ t1, ([("mi", "ni"), ("mo", "no")] : List Event) =
      t1 ++ [("mo", "no")] ∧ ("mi", "ni") ∈ t1 :=
  have hEmptyT : recursively_instantiate reg0 (.tuple []) =
      .ok (.tuple [], []) := ri_tuple_eq reg0 [] [] [] (riList_nil_eq reg0)
  have hEmptyD : recursively_instantiate reg0 (.dict []) =
      .ok (.dict [], []) :=
    ri_dict_nonspec_eq reg0 [] [] [] rfl (riEntries_nil_eq reg0)
  have hInner : recursively_instantiate reg0 (.dict innerKvs) =
      .ok (.int 7, [("mi", "ni")]) :=
    ri_spec_eq_steps reg0 innerKvs (.tuple []) [] (.dict []) []
      { func := fInner, args := [], kwargs := [], module := "mi",
        name := "ni" } rfl hEmptyT hEmptyD rfl
  have hKwOut : recursively_instantiate reg0 (.dict [("x", .dict innerKvs)]) =
      .ok (.dict [("x", .int 7)], [("mi", "ni")]) :=
    ri_dict_nonspec_eq reg0 [("x", .dict innerKvs)] [("x", .int 7)]
      [("mi", "ni")] rfl
      (riEntries_cons_eq reg0 "x" (.dict innerKvs) [] (.int 7) [("mi", "ni")]
        [] [] hInner (riEntries_nil_eq reg0))
  have hok : recursively_instantiate reg0 (.dict outerKvs) =
      .ok (.dict [("x", .int 7)], [("mi", "ni"), ("mo", "no")]) :=
    ri_spec_eq_steps reg0 outerKvs (.tuple []) []
      (.dict [("x", .int 7)]) [("mi", "ni")]
      { func := fOuter, args := [], kwargs := [("x", .int 7)],
        module := "mo", name := "no" } rfl hEmptyT hKwOut rfl
  ⟨rfl, rfl, rfl, rfl, rfl, rfl, rfl, hok,
    c5_inner_invoked_before_outer reg0 outerKvs innerKvs "mo" "no" "mi" "ni"
      rfl rfl rfl rfl rfl rfl
      (Or.inl ⟨[("x", .dict innerKvs)], "x", rfl, by simp, by simp⟩)
      (.dict [("x", .int 7)]) [("mi", "ni"), ("mo", "no")] hok⟩

/-- Two raw paths diverge when they disagree at some index where both are
defined (neither is then a prefix of the other up to that point). A
binding whose raw path diverges from the insertion path is untouched by
`add_kwarg`. -/
def divergesFrom (q r : List String) : Prop :=
  ∃ i, i < q.length ∧ i < r.length ∧ q.get? i ≠ r.get? i

theorem divergesFrom_cons (x y : String) (q r : List String) :
    divergesFrom (x :: q) (y :: r) ↔ x ≠ y ∨ divergesFrom q r := by
  constructor
  · rintro ⟨i, h1, h2, h3⟩
    cases i with
    | zero =>
      left
      simpa using h3
    | succ j =>
      right
      exact ⟨j, by simpa using h1, by simpa using h2, by simpa using h3⟩
  · rintro (hxy | ⟨i, h1, h2, h3⟩)
    · exact ⟨0, by simp, by simp, by simpa using hxy⟩
    · exact ⟨i + 1, by simpa using h1, by simpa using h2, by simpa using h3⟩

theorem not_divergesFrom_nil (r : List String) : ¬ divergesFrom [] r := by
  rintro ⟨i, h1, -, -⟩
  simp at h1

theorem not_divergesFrom_nil_right (q : List String) : ¬ divergesFrom q [] := by
  rintro ⟨i, -, h2, -⟩
  simp at h2

/-- Raw lookup of the target mapping reached by the `add_kwarg` traversal:
following the recorded raw path and then any key reads that key from the
target mapping. -/
theorem reachTargetR_rawGet (rest : List String) :
    ∀ (root : Value) (p : String) (rp : List String)
      (kvs : List (String × Value)),
      reachTargetR root p rest = .ok (rp, kvs) →
      ∀ x, rawGet root (rp ++ [x]) = lookupOpt kvs x := by
  induction rest with
  | nil =>
    intro root p rp kvs h x
    cases root with
    | dict kvs0 =>
      by_cases hs : ModuleSpec.is_module_spec (.dict kvs0) = true
      · simp only [reachTargetR, hs, if_true] at h
        cases hkw : lookupOpt kvs0 "kwargs" with
        | none => rw [hkw] at h; exact absurd h (by simp)
        | some kwv =>
          rw [hkw] at h
          cases kwv with
          | dict kw =>
            simp only [Except.ok.injEq, Prod.mk.injEq] at h
            obtain ⟨hrp, hkvs⟩ := h
            subst hrp
            subst hkvs
            simp only [List.cons_append, List.nil_append, rawGet, hkw]
            cases lookupOpt kw x <;> rfl
          | str s => exact absurd h (by simp)
          | int i => exact absurd h (by simp)
          | none => exact absurd h (by simp)
          | list vs => exact absurd h (by simp)
          | tuple vs => exact absurd h (by simp)
          | set vs => exact absurd h (by simp)
      · have hs' : ModuleSpec.is_module_spec (.dict kvs0) = false :=
          Bool.not_eq_true _ ▸ eq_false_of_ne_true hs
        simp only [reachTargetR, hs', Bool.false_eq_true, if_false,
          Except.ok.injEq, Prod.mk.injEq] at h
        obtain ⟨hrp, hkvs⟩ := h
        subst hrp
        subst hkvs
        simp only [List.nil_append, rawGet]
        cases lookupOpt kvs0 x <;> rfl
    | str s => exact absurd h (by simp [reachTargetR])
    | int i => exact absurd h (by simp [reachTargetR])
    | none => exact absurd h (by simp [reachTargetR])
    | list vs => exact absurd h (by simp [reachTargetR])
    | tuple vs => exact absurd h (by simp [reachTargetR])
    | set vs => exact absurd h (by simp [reachTargetR])
  | cons q0 rest ih =>
    intro root p rp kvs h x
    cases root with
    | dict kvs0 =>
      by_cases hs : ModuleSpec.is_module_spec (.dict kvs0) = true
      · simp only [reachTargetR, hs, if_true] at h
        cases hkw : lookupOpt kvs0 "kwargs" with
        | none => rw [hkw] at h; exact absurd h (by simp)
        | some kwv =>
          rw [hkw] at h
          cases kwv with
          | dict kw =>
            dsimp only at h
            cases hc : lookupOpt kw p with
            | none => rw [hc] at h; exact absurd h (by simp)
            | some child =>
              rw [hc] at h
              dsimp only at h
              cases hrec : reachTargetR child q0 rest with
              | error e => rw [hrec] at h; exact absurd h (by simp)
              | ok pr =>
                obtain ⟨rp', t⟩ := pr
                rw [hrec] at h
                simp only [Except.ok.injEq, Prod.mk.injEq] at h
                obtain ⟨hrp, ht⟩ := h
                subst hrp
                subst ht
                simp only [List.cons_append, rawGet, hkw, hc]
                exact ih child q0 rp' _ hrec x
          | str s => exact absurd h (by simp)
          | int i => exact absurd h (by simp)
          | none => exact absurd h (by simp)
          | list vs => exact absurd h (by simp)
          | tuple vs => exact absurd h (by simp)
          | set vs => exact absurd h (by simp)
      · have hs' : ModuleSpec.is_module_spec (.dict kvs0) = false :=
          Bool.not_eq_true _ ▸ eq_false_of_ne_true hs
        simp only [reachTargetR, hs', Bool.false_eq_true, if_false] at h
        cases hc : lookupOpt kvs0 p with
        | none => rw [hc] at h; exact absurd h (by simp)
        | some child =>
          rw [hc] at h
          dsimp only at h
          cases hrec : reachTargetR child q0 rest with
          | error e => rw [hrec] at h; exact absurd h (by simp)
          | ok pr =>
            obtain ⟨rp', t⟩ := pr
            rw [hrec] at h
            simp only [Except.ok.injEq, Prod.mk.injEq] at h
            obtain ⟨hrp, ht⟩ := h
            subst hrp
            subst ht
            simp only [List.cons_append, rawGet, hc]
            exact ih child q0 rp' _ hrec x
    | str s => exact absurd h (by simp [reachTargetR])
    | int i => exact absurd h (by simp [reachTargetR])
    | none => exact absurd h (by simp [reachTargetR])
    | list vs => exact absurd h (by simp [reachTargetR])
    | tuple vs => exact absurd h (by simp [reachTargetR])
    | set vs => exact absurd h (by simp [reachTargetR])

/-- When the `add_kwarg` traversal resolves, the mutation succeeds and the
value lands at the raw location `rp ++ [last]`: the walked path (with its
spec-transparent `"kwargs"` descents) followed by the final name. -/
theorem addKwargGo_ok_places (v : Value) (rest : List String) :
    ∀ (root : Value) (p : String) (rp : List String)
      (kvs : List (String × Value)),
      reachTargetR root p rest = .ok (rp, kvs) →
      ∃ root', addKwargGo root p rest v = .ok root' ∧
        rawGet root' (rp ++ [lastName p rest]) = some v := by
  induction rest with
  | nil =>
    intro root p rp kvs h
    cases root with
    | dict kvs0 =>
      by_cases hs : ModuleSpec.is_module_spec (.dict kvs0) = true
      · simp only [reachTargetR, hs, if_true] at h
        cases hkw : lookupOpt kvs0 "kwargs" with
        | none => rw [hkw] at h; exact absurd h (by simp)
        | some kwv =>
          rw [hkw] at h
          cases kwv with
          | dict kw =>
            simp only [Except.ok.injEq, Prod.mk.injEq] at h
            obtain ⟨hrp, hkvs⟩ := h
            subst hrp
            refine ⟨.dict (setKey kvs0 "kwargs" (.dict (setKey kw p v))),
              ?_, ?_⟩
            · simp [addKwargGo, hs, hkw]
            · simp [lastName, rawGet, lookupOpt_setKey_self]
          | str s => exact absurd h (by simp)
          | int i => exact absurd h (by simp)
          | none => exact absurd h (by simp)
          | list vs => exact absurd h (by simp)
          | tuple vs => exact absurd h (by simp)
          | set vs => exact absurd h (by simp)
      · have hs' : ModuleSpec.is_module_spec (.dict kvs0) = false :=
          Bool.not_eq_true _ ▸ eq_false_of_ne_true hs
        simp only [reachTargetR, hs', Bool.false_eq_true, if_false,
          Except.ok.injEq, Prod.mk.injEq] at h
        obtain ⟨hrp, hkvs⟩ := h
        subst hrp
        refine ⟨.dict (setKey kvs0 p v), ?_, ?_⟩
        · simp [addKwargGo, hs']
        · simp [lastName, rawGet, lookupOpt_setKey_self]
    | str s => exact absurd h (by simp [reachTargetR])
    | int i => exact absurd h (by simp [reachTargetR])
    | none => exact absurd h (by simp [reachTargetR])
    | list vs => exact absurd h (by simp [reachTargetR])
    | tuple vs => exact absurd h (by simp [reachTargetR])
    | set vs => exact absurd h (by simp [reachTargetR])
  | cons q0 rest ih =>
    intro root p rp kvs h
    cases root with
    | dict kvs0 =>
      by_cases hs : ModuleSpec.is_module_spec (.dict kvs0) = true
      · simp only [reachTargetR, hs, if_true] at h
        cases hkw : lookupOpt kvs0 "kwargs" with
        | none => rw [hkw] at h; exact absurd h (by simp)
        | some kwv =>
          rw [hkw] at h
          cases kwv with
          | dict kw =>
            dsimp only at h
            cases hc : lookupOpt kw p with
            | none => rw [hc] at h; exact absurd h (by simp)
            | some child =>
              rw [hc] at h
              dsimp only at h
              cases hrec : reachTargetR child q0 rest with
              | error e => rw [hrec] at h; exact absurd h (by simp)
              | ok pr =>
                obtain ⟨rp', t⟩ := pr
                rw [hrec] at h
                simp only [Except.ok.injEq, Prod.mk.injEq] at h
                obtain ⟨hrp, ht⟩ := h
                subst hrp
                obtain ⟨child', hrec', hplace⟩ := ih child q0 rp' t hrec
                refine ⟨.dict (setKey kvs0 "kwargs"
                  (.dict (setKey kw p child'))), ?_, ?_⟩
                · simp [addKwargGo, hs, hkw, hc, hrec']
                · simp only [lastName, List.cons_append, rawGet,
                    lookupOpt_setKey_self]
                  exact hplace
          | str s => exact absurd h (by simp)
          | int i => exact absurd h (by simp)
          | none => exact absurd h (by simp)
          | list vs => exact absurd h (by simp)
          | tuple vs => exact absurd h (by simp)
          | set vs => exact absurd h (by simp)
      · have hs' : ModuleSpec.is_module_spec (.dict kvs0) = false :=
          Bool.not_eq_true _ ▸ eq_false_of_ne_true hs
        simp only [reachTargetR, hs', Bool.false_eq_true, if_false] at h
        cases hc : lookupOpt kvs0 p with
        | none => rw [hc] at h; exact absurd h (by simp)
        | some child =>
          rw [hc] at h
          dsimp only at h
          cases hrec : reachTargetR child q0 rest with
          | error e => rw [hrec] at h; exact absurd h (by simp)
          | ok pr =>
            obtain ⟨rp', t⟩ := pr
            rw [hrec] at h
            simp only [Except.ok.injEq, Prod.mk.injEq] at h
            obtain ⟨hrp, ht⟩ := h
            subst hrp
            obtain ⟨child', hrec', hplace⟩ := ih child q0 rp' t hrec
            refine ⟨.dict (setKey kvs0 p child'), ?_, ?_⟩
            · simp [addKwargGo, hs', hc, hrec']
            · simp only [lastName, List.cons_append, rawGet,
                lookupOpt_setKey_self]
              exact hplace
    | str s => exact absurd h (by simp [reachTargetR])
    | int i => exact absurd h (by simp [reachTargetR])
    | none => exact absurd h (by simp [reachTargetR])
    | list vs => exact absurd h (by simp [reachTargetR])
    | tuple vs => exact absurd h (by simp [reachTargetR])
    | set vs => exact absurd h (by simp [reachTargetR])

theorem rawGet_dict_cons_some (A : List (String × Value)) (x : String)
    (c : Value) (q : List String) (h : lookupOpt A x = some c) :
    rawGet (.dict A) (x :: q) = rawGet c q := by
  simp [rawGet, h]

theorem rawGet_dict_congr (A B : List (String × Value)) (x : String)
    (q : List String) (h : lookupOpt B x = lookupOpt A x) :
    rawGet (.dict B) (x :: q) = rawGet (.dict A) (x :: q) := by
  simp only [rawGet, h]

/-- `add_kwarg` leaves every binding whose raw path diverges from the
insertion path unchanged. -/
theorem addKwargGo_preserves (v : Value) (rest : List String) :
    ∀ (root : Value) (p : String) (rp : List String)
      (kvs : List (String × Value)) (root' : Value),
      reachTargetR root p rest = .ok (rp, kvs) →
      addKwargGo root p rest v = .ok root' →
      ∀ q, divergesFrom q (rp ++ [lastName p rest]) →
        rawGet root' q = rawGet root q := by
  induction rest with
  | nil =>
    intro root p rp kvs root' h hadd q hdiv
    cases root with
    | dict kvs0 =>
      by_cases hs : ModuleSpec.is_module_spec (.dict kvs0) = true
      · simp only [reachTargetR, hs, if_true] at h
        cases hkw : lookupOpt kvs0 "kwargs" with
        | none => rw [hkw] at h; exact absurd h (by simp)
        | some kwv =>
          rw [hkw] at h
          cases kwv with
          | dict kw =>
            simp only [Except.ok.injEq, Prod.mk.injEq] at h
            obtain ⟨hrp, hkvs⟩ := h
            subst hrp
            simp only [addKwargGo, hs, if_true, hkw, Except.ok.injEq] at hadd
            subst hadd
            cases q with
            | nil => exact absurd hdiv (not_divergesFrom_nil _)
            | cons x q' =>
              simp only [List.cons_append, List.nil_append, lastName] at hdiv
              by_cases hx2 : x = "kwargs"
              · subst hx2
                rcases (divergesFrom_cons _ _ _ _).mp hdiv with hx | hdiv'
                · exact absurd rfl hx
                · rw [rawGet_dict_cons_some _ _ _ _
                      (lookupOpt_setKey_self kvs0 "kwargs" _),
                    rawGet_dict_cons_some _ _ _ _ hkw]
                  cases q' with
                  | nil => exact absurd hdiv' (not_divergesFrom_nil _)
                  | cons y q'' =>
                    rcases (divergesFrom_cons _ _ _ _).mp hdiv' with hy | hdiv''
                    · exact rawGet_dict_congr kw _ y q''
                        (lookupOpt_setKey_other kw p y v hy)
                    · exact absurd hdiv'' (not_divergesFrom_nil_right _)
              · exact rawGet_dict_congr kvs0 _ x q'
                  (lookupOpt_setKey_other kvs0 "kwargs" x _ hx2)
          | str s => exact absurd h (by simp)
          | int i => exact absurd h (by simp)
          | none => exact absurd h (by simp)
          | list vs => exact absurd h (by simp)
          | tuple vs => exact absurd h (by simp)
          | set vs => exact absurd h (by simp)
      · have hs' : ModuleSpec.is_module_spec (.dict kvs0) = false :=
          Bool.not_eq_true _ ▸ eq_false_of_ne_true hs
        simp only [reachTargetR, hs', Bool.false_eq_true, if_false,
          Except.ok.injEq, Prod.mk.injEq] at h
        obtain ⟨hrp, hkvs⟩ := h
        subst hrp
        simp only [addKwargGo, hs', Bool.false_eq_true, if_false,
          Except.ok.injEq] at hadd
        subst hadd
        cases q with
        | nil => exact absurd hdiv (not_divergesFrom_nil _)
        | cons x q' =>
          simp only [List.nil_append, lastName] at hdiv
          rcases (divergesFrom_cons _ _ _ _).mp hdiv with hx | hdiv'
          · exact rawGet_dict_congr kvs0 _ x q'
              (lookupOpt_setKey_other kvs0 p x v hx)
          · exact absurd hdiv' (not_divergesFrom_nil_right _)
    | str s => exact absurd h (by simp [reachTargetR])
    | int i => exact absurd h (by simp [reachTargetR])
    | none => exact absurd h (by simp [reachTargetR])
    | list vs => exact absurd h (by simp [reachTargetR])
    | tuple vs => exact absurd h (by simp [reachTargetR])
    | set vs => exact absurd h (by simp [reachTargetR])
  | cons q0 rest ih =>
    intro root p rp kvs root' h hadd q hdiv
    cases root with
    | dict kvs0 =>
      by_cases hs : ModuleSpec.is_module_spec (.dict kvs0) = true
      · simp only [reachTargetR, hs, if_true] at h
        simp only [addKwargGo, hs, if_true] at hadd
        cases hkw : lookupOpt kvs0 "kwargs" with
        | none => rw [hkw] at h; exact absurd h (by simp)
        | some kwv =>
          rw [hkw] at h
          rw [hkw] at hadd
          cases kwv with
          | dict kw =>
            dsimp only at h hadd
            cases hc : lookupOpt kw p with
            | none => rw [hc] at h; exact absurd h (by simp)
            | some child =>
              rw [hc] at h
              rw [hc] at hadd
              dsimp only at h hadd
              cases hrec : reachTargetR child q0 rest with
              | error e => rw [hrec] at h; exact absurd h (by simp)
              | ok pr =>
                obtain ⟨rp', t⟩ := pr
                rw [hrec] at h
                simp only [Except.ok.injEq, Prod.mk.injEq] at h
                obtain ⟨hrp, ht⟩ := h
                subst hrp
                cases haddc : addKwargGo child q0 rest v with
                | error e => rw [haddc] at hadd; exact absurd hadd (by simp)
                | ok child' =>
                  rw [haddc] at hadd
                  simp only [Except.ok.injEq] at hadd
                  subst hadd
                  cases q with
                  | nil => exact absurd hdiv (not_divergesFrom_nil _)
                  | cons x q' =>
                    simp only [List.cons_append, lastName] at hdiv
                    by_cases hx2 : x = "kwargs"
                    · subst hx2
                      rcases (divergesFrom_cons _ _ _ _).mp hdiv with hx | hdiv'
                      · exact absurd rfl hx
                      · rw [rawGet_dict_cons_some _ _ _ _
                            (lookupOpt_setKey_self kvs0 "kwargs" _),
                          rawGet_dict_cons_some _ _ _ _ hkw]
                        cases q' with
                        | nil => exact absurd hdiv' (not_divergesFrom_nil _)
                        | cons y q'' =>
                          by_cases hy2 : y = p
                          · subst hy2
                            rcases (divergesFrom_cons _ _ _ _).mp hdiv' with
                              hy | hdiv''
                            · exact absurd rfl hy
                            · rw [rawGet_dict_cons_some _ _ _ _
                                  (lookupOpt_setKey_self kw y _),
                                rawGet_dict_cons_some _ _ _ _ hc]
                              exact ih child q0 rp' t child' hrec haddc q''
                                hdiv''
                          · exact rawGet_dict_congr kw _ y q''
                              (lookupOpt_setKey_other kw p y _ hy2)
                    · exact rawGet_dict_congr kvs0 _ x q'
                        (lookupOpt_setKey_other kvs0 "kwargs" x _ hx2)
          | str s => exact absurd h (by simp)
          | int i => exact absurd h (by simp)
          | none => exact absurd h (by simp)
          | list vs => exact absurd h (by simp)
          | tuple vs => exact absurd h (by simp)
          | set vs => exact absurd h (by simp)
      · have hs' : ModuleSpec.is_module_spec (.dict kvs0) = false :=
          Bool.not_eq_true _ ▸ eq_false_of_ne_true hs
        simp only [reachTargetR, hs', Bool.false_eq_true, if_false] at h
        simp only [addKwargGo, hs', Bool.false_eq_true, if_false] at hadd
        cases hc : lookupOpt kvs0 p with
        | none => rw [hc] at h; exact absurd h (by simp)
        | some child =>
          rw [hc] at h
          rw [hc] at hadd
          dsimp only at h hadd
          cases hrec : reachTargetR child q0 rest with
          | error e => rw [hrec] at h; exact absurd h (by simp)
          | ok pr =>
            obtain ⟨rp', t⟩ := pr
            rw [hrec] at h
            simp only [Except.ok.injEq, Prod.mk.injEq] at h
            obtain ⟨hrp, ht⟩ := h
            subst hrp
            cases haddc : addKwargGo child q0 rest v with
            | error e => rw [haddc] at hadd; exact absurd hadd (by simp)
            | ok child' =>
              rw [haddc] at hadd
              simp only [Except.ok.injEq] at hadd
              subst hadd
              cases q with
              | nil => exact absurd hdiv (not_divergesFrom_nil _)
              | cons x q' =>
                simp only [List.cons_append, lastName] at hdiv
                by_cases hx2 : x = p
                · subst hx2
                  rcases (divergesFrom_cons _ _ _ _).mp hdiv with hx | hdiv'
                  · exact absurd rfl hx
                  · rw [rawGet_dict_cons_some _ _ _ _
                        (lookupOpt_setKey_self kvs0 x _),
                      rawGet_dict_cons_some _ _ _ _ hc]
                    exact ih child q0 rp' t child' hrec haddc q' hdiv'
                · exact rawGet_dict_congr kvs0 _ x q'
                    (lookupOpt_setKey_other kvs0 p x _ hx2)
    | str s => exact absurd h (by simp [reachTargetR])
    | int i => exact absurd h (by simp [reachTargetR])
    | none => exact absurd h (by simp [reachTargetR])
    | list vs => exact absurd h (by simp [reachTargetR])
    | tuple vs => exact absurd h (by simp [reachTargetR])
    | set vs => exact absurd h (by simp [reachTargetR])

/-- C6: when the traversal of `add_kwarg(root, path, v)` resolves, the
mutation succeeds and sets `v` at the nested logical location named by the
dotted path: the value ends up at the raw location obtained by descending
through the `kwargs` field of every spec-shaped node on the path (also at
the final name) and by ordinary key lookup otherwise — exactly the raw
path `rp` recorded by the traversal, followed by the final name. -/
theorem c6_add_kwarg_sets_logical_location (root : Value) (k : String)
    (v : Value) (p : String) (rest : List String) (rp : List String)
    (kvs : List (String × Value))
    (hsplit : pySplit (Char.ofNat 46) k = p :: rest)
    (h : reachTargetR root p rest = .ok (rp, kvs)) :
    ∃ root', add_kwarg root k v = .ok root' ∧
      rawGet root' (rp ++ [lastName p rest]) = some v := by
  obtain ⟨root', hadd, hplace⟩ := addKwargGo_ok_places v rest root p rp kvs h
  exact ⟨root', by simp [add_kwarg, hsplit, hadd], hplace⟩

/-- A spec-shaped node whose `kwargs` holds a nested mapping `b.c`. -/
def specNodeA : Value :=
  .dict [("module", .str "mi"), ("name", .str "ni"), ("args", .tuple []),
         ("kwargs", .dict [("b", .dict [("c", .int 0)])])]

theorem c6_add_kwarg_sets_logical_location_witness :
    pySplit (Char.ofNat 46) "a.b.c" = ["a", "b", "c"] ∧
    reachTargetR (.dict [("a", specNodeA)]) "a" ["b", "c"] =
      .ok (["a", "kwargs", "b"], [("c", .int 0)]) ∧
    ∃ root', add_kwarg (.dict [("a", specNodeA)]) "a.b.c" (.int 5) =
      .ok root' ∧
      rawGet root' (["a", "kwargs", "b"] ++
        [lastName "a" ["b", "c"]]) = some (.int 5) :=
  ⟨rfl, rfl,
    c6_add_kwarg_sets_logical_location (.dict [("a", specNodeA)]) "a.b.c"
      (.int 5) "a" ["b", "c"] ["a", "kwargs", "b"] [("c", .int 0)] rfl rfl⟩

/-- C10: when the traversal of `add_kwarg` resolves and the final name is
absent from the mapping reached at the end, the call does not fail: it
inserts the final name as a new key bound to the given value (at the raw
location where there was nothing before), and every binding whose raw path
diverges from the insertion path is byte-for-byte unchanged. -/
theorem c10_add_kwarg_inserts_missing_key (root : Value) (k : String)
    (v : Value) (p : String) (rest : List String) (rp : List String)
    (kvs : List (String × Value))
    (hsplit : pySplit (Char.ofNat 46) k = p :: rest)
    (h : reachTargetR root p rest = .ok (rp, kvs))
    (habs : lookupOpt kvs (lastName p rest) = Option.none) :
    ∃ root', add_kwarg root k v = .ok root' ∧
      rawGet root' (rp ++ [lastName p rest]) = some v ∧
      rawGet root (rp ++ [lastName p rest]) = Option.none ∧
      ∀ q, divergesFrom q (rp ++ [lastName p rest]) →
        rawGet root' q = rawGet root q := by
  obtain ⟨root', hadd, hplace⟩ := addKwargGo_ok_places v rest root p rp kvs h
  refine ⟨root', by simp [add_kwarg, hsplit, hadd], hplace, ?_, ?_⟩
  · rw [reachTargetR_rawGet rest root p rp kvs h (lastName p rest), habs]
  · exact addKwargGo_preserves v rest root p rp kvs root' h hadd

/-- Like `specNodeA` but with the final key absent from the nested
mapping. -/
def specNodeB : Value :=
  .dict [("module", .str "mi"), ("name", .str "ni"), ("args", .tuple []),
         ("kwargs", .dict [("b", .dict [("d", .int 9)])])]

theorem c10_add_kwarg_inserts_missing_key_witness :
    pySplit (Char.ofNat 46) "a.b.c" = ["a", "b", "c"] ∧
    reachTargetR (.dict [("a", specNodeB)]) "a" ["b", "c"] =
      .ok (["a", "kwargs", "b"], [("d", .int 9)]) ∧
    lookupOpt [("d", .int 9)] (lastName "a" ["b", "c"]) = Option.none ∧
    ∃ root', add_kwarg (.dict [("a", specNodeB)]) "a.b.c" (.int 5) =
      .ok root' ∧
      rawGet root' (["a", "kwargs", "b"] ++ [lastName "a" ["b", "c"]]) =
        some (.int 5) ∧
      rawGet (.dict [("a", specNodeB)])
        (["a", "kwargs", "b"] ++ [lastName "a" ["b", "c"]]) = Option.none ∧
      ∀ q, divergesFrom q (["a", "kwargs", "b"] ++
        [lastName "a" ["b", "c"]]) →
        rawGet root' q = rawGet (.dict [("a", specNodeB)]) q :=
  ⟨rfl, rfl, rfl,
    c10_add_kwarg_inserts_missing_key (.dict [("a", specNodeB)]) "a.b.c"
      (.int 5) "a" ["b", "c"] ["a", "kwargs", "b"] [("d", .int 9)]
      rfl rfl rfl⟩
